import Mathlib

/-!
Shallow embedding of the reconciliation / tombstone-store engine of
`src/state.ts` (class `ContextState` and its module-level helpers).

Modelling conventions:
* A JavaScript string is modelled as a `List Char` (`Str`).  `String.data`
  converts Lean string literals.
* File-system paths use the POSIX separator `'/'`; `toLowerCase` is modelled
  on the ASCII range (the code only compares paths it produced itself).
* `vscode.Uri` keys: the engine keys its maps by `uri.toString()` of
  `vscode.Uri.file(filePath)` and parses them back; this round-trip is the
  identity on the file path, so keys are modelled as the paths themselves.
* `crypto`-based id generation (`generateCustomId`) is modelled as an oracle
  `gen : Nat → Str` together with a counter threaded through the scan: each
  consumed fresh id advances the counter, as consecutive real calls return
  distinct ids.
* File reads are modelled as `Option Str` (`none` = the read threw).
-/

namespace Contexty

/-- JavaScript strings are modelled as lists of characters. -/
abbrev Str := List Char

/-- Convert a Lean string literal to the model's string type. -/
def str (s : String) : Str := s.data

/-! ## Small string utilities -/

/-- Split on the regex `/\r?\n/`, as `String.prototype.split` does:
every `\n` terminates a line, consuming one directly preceding `\r`. -/
def splitLinesCL : Str → List Str
  | [] => [[]]
  | '\r' :: '\n' :: rest => [] :: splitLinesCL rest
  | '\n' :: rest => [] :: splitLinesCL rest
  | c :: rest =>
    match splitLinesCL rest with
    | [] => [[c]]
    | l :: ls => (c :: l) :: ls

/-- `Array.prototype.join('\n')`. -/
def joinNL : List Str → Str
  | [] => []
  | [l] => l
  | l :: ls => l ++ '\n' :: joinNL ls

/-- Decimal digit character for a value below ten. -/
def decDigit (d : Nat) : Char := Char.ofNat (48 + d)

/-- Fuel-based decimal rendering: prepend the digits of `n` to `acc`.  Any
fuel above `n` yields all digits. -/
def natToDecCore : Nat → Nat → Str → Str
  | 0, _, acc => acc
  | fuel + 1, n, acc =>
    if n < 10 then decDigit (n % 10) :: acc
    else natToDecCore fuel (n / 10) (decDigit (n % 10) :: acc)

/-- `String(n)` for a natural number: its decimal digits. -/
def natToDec (n : Nat) : Str := natToDecCore (n + 1) n []

/-- `String(n).padStart(5, '0')`. -/
def pad5 (n : Nat) : Str :=
  let s := natToDec n
  if s.length < 5 then List.replicate (5 - s.length) '0' ++ s else s

/-- Accumulating decimal parse (`Number.parseInt` on an all-digit run). -/
def parseDecFrom (a : Nat) (ds : Str) : Nat :=
  ds.foldl (fun x c => x * 10 + (c.toNat - 48)) a

/-- `Number.parseInt(ds, 10)` for a non-empty digit run. -/
def parseDec (ds : Str) : Nat := parseDecFrom 0 ds

/-- The match `/^(\d+)\|\s?/` of `getLineRangesForFile`: a line yields a
1-based source line number when it starts with a digit run followed by a
pipe; the parsed number is returned. -/
def lineNum (l : Str) : Option Nat :=
  match l.takeWhile Char.isDigit, l.dropWhile Char.isDigit with
  | [], _ => none
  | ds, '|' :: _ => some (parseDec ds)
  | _, _ => none

/-! ## PartFormatter: `formatFileWithNumbers` -/

/-- Result record of `formatFileWithNumbers`. -/
structure FmtResult where
  output : Str
  preview : Str
  truncated : Bool
  lineCount : Nat
deriving DecidableEq, Repr

/-- The numbered rendering `lines.map((line, idx) => pad(idx+1) + "| " + line)`,
with `i` the 1-based number of the first line of the block. -/
def numberFrom (i : Nat) : List Str → List Str
  | [] => []
  | l :: ls => (pad5 i ++ '|' :: ' ' :: l) :: numberFrom (i + 1) ls

/-- `formatFileWithNumbers` of `state.ts` (lines 88-111).  The read result is
`some text` on success and `none` when `readFile` threw; the catch branch
returns the empty/zero record. -/
def formatFileWithNumbers : Option Str → FmtResult
  | none => ⟨[], [], false, 0⟩
  | some text =>
    let lines := splitLinesCL text
    let numbered := numberFrom 1 lines
    let bodyWithNumbers := joinNL numbered
    let endLine := str "(End of file - total " ++ natToDec lines.length ++ str " lines)"
    let output := str "<file>" ++ '\n' :: bodyWithNumbers ++ '\n' :: '\n' :: endLine ++ '\n' :: str "</file>"
    let rawBody := joinNL lines
    let truncated := decide (1000 < rawBody.length)
    let preview := if 1000 < rawBody.length then rawBody.take 1000 else rawBody
    ⟨output, preview, truncated, lines.length⟩

/-! ## LineRangeDeriver: the scan of `getLineRangesForFile` -/

/-- One minimum/maximum update step of the scan loop. -/
def updMinMax (acc : Option Nat × Option Nat) (n : Nat) : Option Nat × Option Nat :=
  (match acc.1 with
   | none => some n
   | some m => some (if n < m then n else m),
   match acc.2 with
   | none => some n
   | some m => some (if m < n then n else m))

/-- The per-part body of `getLineRangesForFile` (lines 302-326): scan every
line of the output for the numbered-line pattern, accumulate the minimum and
maximum matched 1-based line number, and emit one 0-based inclusive range
when at least one line matched. -/
def partRange (output : Str) : Option (Nat × Nat) :=
  let scan := (splitLinesCL output).foldl
    (fun acc l => match lineNum l with
      | none => acc
      | some n => updMinMax acc n) (none, none)
  match scan with
  | (some mn, some mx) => some (mn - 1, mx - 1)
  | _ => none

/-! ## Path utilities (POSIX model of the `path` module and `toLowerCase`) -/

/-- ASCII model of `String.prototype.toLowerCase` on one character. -/
def lowerC (c : Char) : Char :=
  if 'A' ≤ c ∧ c ≤ 'Z' then Char.ofNat (c.toNat + 32) else c

/-- ASCII model of `String.prototype.toLowerCase`. -/
def lowerS (s : Str) : Str := s.map lowerC

/-- `String.prototype.startsWith`: is `p` a leading run of `s`? -/
def hasPrefixCL : Str → Str → Bool
  | [], _ => true
  | _ :: _, [] => false
  | p :: ps, s :: ss => decide (p = s) && hasPrefixCL ps ss

/-- Split a path on the separator `'/'`. -/
def splitSep : Str → List Str
  | [] => [[]]
  | '/' :: rest => [] :: splitSep rest
  | c :: rest =>
    match splitSep rest with
    | [] => [[c]]
    | l :: ls => (c :: l) :: ls

/-- Join path segments with `'/'`. -/
def joinSep : List Str → Str
  | [] => []
  | [l] => l
  | l :: ls => l ++ '/' :: joinSep ls

/-- Segment-level core of POSIX `path.relative` on resolved absolute paths:
drop the common prefix, then one `..` per remaining source segment followed
by the remaining target segments. -/
def relSegs : List Str → List Str → List Str
  | [], t => t
  | f, [] => f.map (fun _ => str "..")
  | a :: as, b :: bs =>
    if a = b then relSegs as bs
    else List.replicate (as.length + 1) (str "..") ++ b :: bs

/-- `path.relative(base, fp)` for resolved absolute POSIX paths. -/
def pathRelative (base fp : Str) : Str := joinSep (relSegs (splitSep base) (splitSep fp))

/-- `path.join(base, seg)` for a normalized base and a plain segment. -/
def pathJoin (base seg : Str) : Str :=
  if base.getLast? = some '/' then base ++ seg else base ++ '/' :: seg

/-! ## Data model: part records, documents, roots -/

/-- A raw record of a `parts` document, as loosely typed JSON.  A field is
`none` when it is absent or not of the expected primitive type; an array
entry that is not an object behaves exactly like a record whose
`state.input.filePath` is not a string (both are skipped), so it is
represented the same way. -/
structure RawPart where
  id : Option Str
  filePath : Option Str
  output : Option Str
  truncMeta : Option Bool
  timeStart : Option Int
deriving DecidableEq, Repr

/-- A normalized in-memory part as stored in `partsByFile` after
reconciliation: `id` and `filePath` are definitely strings. -/
structure ToolPart where
  id : Str
  filePath : Str
  output : Option Str
  truncMeta : Option Bool
  timeStart : Option Int
deriving DecidableEq, Repr

/-- One discovered `.contexty` directory: the string ids of its blacklist
document (non-string entries of the `ids` array are ignored by the reader)
and the records of its parts document. -/
structure ContextDir where
  banIds : List Str
  parts : List RawPart
deriving DecidableEq, Repr

/-- Is `fp` inside some configured workspace root
(`vscode.workspace.getWorkspaceFolder` returns a folder for it)? -/
def underSomeRoot (roots : List Str) (fp : Str) : Bool :=
  roots.any (fun r => hasPrefixCL (r ++ ['/']) fp)

/-- `Set.prototype.add`: append when absent. -/
def addIfAbsent (l : List Str) (x : Str) : List Str :=
  if x ∈ l then l else l ++ [x]

/-- Add every element of `xs` to the set `l`. -/
def addAll (l : List Str) (xs : List Str) : List Str := xs.foldl addIfAbsent l

/-- The in-memory engine state rebuilt by `syncCheckedFromExternalParts`:
the union-of-blacklists `banned` set, the indexed parts (flattened in
insertion order; `partsByFile` buckets are recovered by filtering on
`filePath`), and the id-generator counter after the run.  The `checked` map
of `ContextState` is cleared by `load` and by every sync and never written
to, so it is identically empty and not represented. -/
structure SyncState where
  banned : List Str
  index : List ToolPart
  counter : Nat
deriving DecidableEq, Repr

/-- The per-parts-document record loop of `syncCheckedFromExternalParts`
(lines 676-706): skip records without a string `state.input.filePath`;
normalize the id (a fresh generated one when missing or non-string); skip
ids in the local or accumulated blacklist; skip paths outside every
configured root; otherwise index the part. -/
def scanParts (gen : Nat → Str) (roots : List Str) (localBl banned : List Str) :
    List RawPart → Nat → List ToolPart × Nat
  | [], c => ([], c)
  | r :: rest, c =>
    match r.filePath with
    | none => scanParts gen roots localBl banned rest c
    | some fp =>
      let pr : Str × Nat :=
        match r.id with
        | some i => (i, c)
        | none => (gen c, c + 1)
      if pr.1 ∈ localBl ∨ pr.1 ∈ banned then
        scanParts gen roots localBl banned rest pr.2
      else if underSomeRoot roots fp then
        let res := scanParts gen roots localBl banned rest pr.2
        (⟨pr.1, fp, r.output, r.truncMeta, r.timeStart⟩ :: res.1, res.2)
      else scanParts gen roots localBl banned rest pr.2

/-- The per-directory loop of `syncCheckedFromExternalParts` (lines
641-707): read the sibling blacklist into the accumulated `banned` set,
then scan the parts document against the local and accumulated sets. -/
def syncDirs (gen : Nat → Str) (roots : List Str) :
    List ContextDir → List Str → Nat → SyncState
  | [], banned, c => ⟨banned, [], c⟩
  | d :: ds, banned, c =>
    let banned' := addAll banned d.banIds
    let scanned := scanParts gen roots d.banIds banned' d.parts c
    let s := syncDirs gen roots ds banned' scanned.2
    ⟨s.banned, scanned.1 ++ s.index, s.counter⟩

/-- `syncCheckedFromExternalParts`: start from an empty state and rebuild it
from the discovered context directories. -/
def syncCore (gen : Nat → Str) (roots : List Str) (dirs : List ContextDir) (c : Nat) :
    SyncState := syncDirs gen roots dirs [] c

/-! ## Read-side queries over the index -/

/-- The `partsByFile` bucket for a file, in insertion order. -/
def partsForFile (s : SyncState) (fp : Str) : List ToolPart :=
  s.index.filter (fun p => decide (p.filePath = fp))

/-- `isChecked` (lines 150-158): true when the file has at least one indexed
part.  (The `checked`-map fallback is identically false, see `SyncState`.) -/
def isCheckedB (s : SyncState) (fp : Str) : Bool :=
  !(partsForFile s fp).isEmpty

/-- The comparator of `getPartsForFile` (lines 281-288): creation time
(defaulting to 0), then id, as a total `≤`-style relation. -/
def partOrd (a b : ToolPart) : Prop :=
  a.timeStart.getD 0 < b.timeStart.getD 0 ∨
    (a.timeStart.getD 0 = b.timeStart.getD 0 ∧ a.id ≤ b.id)

instance : DecidableRel partOrd := fun a b => by
  unfold partOrd; infer_instance

/-- The ids of a file's parts in the order `getPartsForFile` returns them.
The source returns one `{id, label, tooltip, truncated}` record per part
(line 291); the `id` projection suffices for the claims, and the full
records agree exactly when the id sequences agree only if the remaining
fields do, so a difference here is a difference of the full results. -/
def partsForIds (s : SyncState) (fp : Str) : List Str :=
  (List.insertionSort partOrd (partsForFile s fp)).map (fun p => p.id)

/-- Helper of `firstDedup`: keep elements not yet seen. -/
def firstDedupAux (seen : List Str) : List Str → List Str
  | [] => []
  | a :: l =>
    if a ∈ seen then firstDedupAux seen l
    else a :: firstDedupAux (seen ++ [a]) l

/-- First-occurrence deduplication: the key iteration order of a JS `Map`
built by repeated `set`. -/
def firstDedup (l : List Str) : List Str := firstDedupAux [] l

/-- The keys of `partsByFile` in insertion order. -/
def keysOf (s : SyncState) : List Str := firstDedup (s.index.map (fun p => p.filePath))

/-- `Map.prototype.set` on an association list: replace the value in place
when the key is present, append otherwise. -/
def upsertKV (m : List (Str × Str)) (k v : Str) : List (Str × Str) :=
  if m.any (fun e => decide (e.1 = k)) then
    m.map (fun e => if e.1 = k then (k, v) else e)
  else m ++ [(k, v)]

/-- One key's classification step of `getChildrenForPath` (lines 204-226):
state is the pair of the `dirs` and `files` maps. -/
def childrenStep (basePath : Str) (st : List (Str × Str) × List (Str × Str)) (fp : Str) :
    List (Str × Str) × List (Str × Str) :=
  if hasPrefixCL (lowerS basePath ++ ['/']) (lowerS fp) then
    let rel := pathRelative basePath fp
    if rel = [] ∨ hasPrefixCL (str "..") rel then st
    else
      let segs := splitSep rel
      if segs.length = 1 then (st.1, upsertKV st.2 fp (segs.headD []))
      else (upsertKV st.1 (pathJoin basePath (segs.headD [])) (segs.headD []), st.2)
  else st

/-- A rendered child entry (`uri` modelled by its path, plus the label). -/
structure Entry where
  path : Str
  label : Str
deriving DecidableEq, Repr

/-- Label comparison of the final sort (`localeCompare` modelled as
code-point order). -/
def entryOrd (a b : Entry) : Prop := a.label ≤ b.label

instance : DecidableRel entryOrd := fun a b => by
  unfold entryOrd; infer_instance

/-- `getChildrenForPath` (lines 197-234): classify every indexed path, then
sort each entry list by label. -/
def getChildrenForPath (s : SyncState) (basePath : Str) : List Entry × List Entry :=
  let m := (keysOf s).foldl (childrenStep basePath) ([], [])
  (List.insertionSort entryOrd (m.1.map (fun e => ⟨e.1, e.2⟩)),
   List.insertionSort entryOrd (m.2.map (fun e => ⟨e.1, e.2⟩)))

/-! ## Write-side: `writeCheckedFile` document transforms and ban operations -/

/-- Does a raw record pass the shape validation of `writeCheckedFile`
(lines 564-567): `id` and `state.input.filePath` are strings? -/
def shapeValid (r : RawPart) : Bool := r.id.isSome && r.filePath.isSome

/-- `Map.prototype.set` keyed by `id` on a record list: the position of the
first record with that id is kept, its value replaced; otherwise append. -/
def upsertById (m : List RawPart) (p : RawPart) : List RawPart :=
  if m.any (fun q => decide (q.id = p.id)) then
    m.map (fun q => if q.id = p.id then p else q)
  else m ++ [p]

/-- `new Map(list.map(p => [p.id, p]))` followed by `[...map.values()]`:
first-occurrence position, last-occurrence value per id. -/
def dedupById (l : List RawPart) : List RawPart := l.foldl upsertById []

/-- The `filePath` sort key of the rewritten parts document
(`a.state.input.filePath || ""`). -/
def fpKey (r : RawPart) : Str := r.filePath.getD []

/-- The parts-document comparator of `writeCheckedFile` (line 614). -/
def fpOrd (a b : RawPart) : Prop := fpKey a ≤ fpKey b

instance : DecidableRel fpOrd := fun a b => by
  unfold fpOrd; infer_instance

instance : IsTotal RawPart fpOrd := ⟨fun a b => le_total (fpKey a) (fpKey b)⟩

instance : IsTrans RawPart fpOrd := ⟨fun _ _ _ h1 h2 => le_trans h1 h2⟩

/-- The parts-document rewrite of `writeCheckedFile` for one root (lines
559-618) as it executes in `ContextState`: drop records failing shape
validation, merge by id, and sort by `filePath`.  The `checkedEntries`
merge loop is omitted because the `checked` map of `ContextState` is
identically empty (see `SyncState`), so that loop never runs. -/
def writeCheckedParts (doc : List RawPart) : List RawPart :=
  List.insertionSort fpOrd (dedupById (doc.filter shapeValid))

/-- The blacklist-document rewrite of `writeCheckedFile` (lines 551-552 and
622): the banned set as a sorted array (`localeCompare` modelled as
code-point order; the set itself is duplicate-free). -/
def writeCheckedBan (banned : List Str) : List Str :=
  List.insertionSort (fun a b => a ≤ b) banned

/-- The persisted effect of one `writeCheckedFile` call: for every
configured root, its parts document is rewritten by `writeCheckedParts` of
its current contents and its blacklist document is rewritten to the same
`writeCheckedBan banned` array.  `docs` lists each root's current parts
document. -/
def banPersist (banned : List Str) (docs : List (List RawPart)) :
    List (List RawPart × List Str) :=
  docs.map (fun d => (writeCheckedParts d, writeCheckedBan banned))

/-- The counting loop of `banAllParts` (lines 373-381): one pass over every
indexed part, banning every id not yet banned and counting the additions.
Returns the new banned set and the count `added`; the source performs a
persist-and-resync only when `added > 0`. -/
def banAllCount (s : SyncState) : List Str × Nat :=
  s.index.foldl
    (fun acc p => if p.id ∈ acc.1 then acc else (acc.1 ++ [p.id], acc.2 + 1))
    (s.banned, 0)

/-! ## Capture operations: `addFilePart` and `addSelectionPart` -/

/-- The outcome of `addFilePart` that the claims observe: the created part
record (if any), the rewritten parts document, and whether a write
happened. -/
structure AddFileOutcome where
  part : Option RawPart
  doc : List RawPart
  wrote : Bool
deriving DecidableEq, Repr

/-- `addFilePart` (lines 395-452).  `read` is the outcome of reading the
captured file, `root` the workspace root found for it (`none` when
`getWorkspaceFolder` finds no configured root), `freshId` the id the
generator returns for the new part, `now` the timestamp, and `doc` the
current contents of the root's parts document.  On a failed read
(`lineCount = 0`) or a missing root the operation returns without creating
a part or touching the document; otherwise the new record is pushed at the
end of the document, which is rewritten unsorted and unmerged.  The
persisted metadata is `{ preview, truncated: false }`: the `truncated` flag
computed by `formatFileWithNumbers` is discarded (line 427). -/
def addFilePart (read : Option Str) (root : Option Str) (fp : Str) (freshId : Str)
    (now : Int) (doc : List RawPart) : AddFileOutcome :=
  match root with
  | none => ⟨none, doc, false⟩
  | some _ =>
    let fmt := formatFileWithNumbers read
    if fmt.lineCount = 0 then ⟨none, doc, false⟩
    else
      let part : RawPart :=
        ⟨some freshId, some fp, some fmt.output, some false, some now⟩
      ⟨some part, doc ++ [part], true⟩

/-- A 0-based position in a text document. -/
structure Pos where
  line : Nat
  character : Nat
deriving DecidableEq, Repr

/-- A selection; `vscode` keeps `start ≤ stop` for user selections, but the
model does not assume it. -/
structure Sel where
  start : Pos
  stop : Pos
deriving DecidableEq, Repr

/-- The effective end line of `addSelectionPart` (lines 477-480): a
selection ending at column 0 strictly below its start line stops at the
previous line. -/
def effEndLine (sel : Sel) : Nat :=
  if sel.stop.character = 0 ∧ sel.start.line < sel.stop.line then
    sel.stop.line - 1
  else sel.stop.line

/-- The capture a successful `addSelectionPart` builds. -/
structure SelCapture where
  startLine : Nat
  endLine : Nat
  output : Str
  preview : Str
  truncated : Bool
deriving DecidableEq, Repr

/-- The capture core of `addSelectionPart` (lines 454-514) on a document
given as its list of lines.  Returns `none` when the selection is empty or
when the effective end line precedes the start line (the silent no-op
branches); the persistence of a built part is the same push-to-document
step as `addFilePart`. -/
def selectionCapture (docLines : List Str) (sel : Sel) : Option SelCapture :=
  if sel.start = sel.stop then none
  else
    let startLine := sel.start.line
    let lineCount := docLines.length
    let fullEnd : Pos := ⟨lineCount - 1, ((docLines.getLast?).getD []).length⟩
    let isFullSelection :=
      sel.start = ⟨0, 0⟩ ∧
        (sel.stop = fullEnd ∨ (sel.stop.line = lineCount ∧ sel.stop.character = 0))
    let endLine := effEndLine sel
    if endLine < startLine then none
    else
      let numberedLines :=
        (List.range' startLine (endLine + 1 - startLine)).map
          (fun line => pad5 (line + 1) ++ '|' :: ' ' :: docLines.getD line [])
      let total := natToDec lineCount
      let output :=
        str "<file>" ++ '\n' :: joinNL numberedLines ++ '\n' :: '\n' ::
          str "(Excerpt lines " ++ natToDec (startLine + 1) ++ '-' ::
          natToDec (endLine + 1) ++ str " of total " ++ total ++ str " lines)" ++
          '\n' :: str "</file>"
      some ⟨startLine, endLine, output, output.take 1000, !decide isFullSelection⟩

/-- `getLineRangesForFile` (lines 295-328): one derived range per part of
the file whose output contains at least one numbered line (a part whose
`output` is not a string scans the empty string). -/
def getLineRangesForFile (s : SyncState) (fp : Str) : List (Nat × Nat) :=
  (partsForFile s fp).filterMap (fun p => partRange (p.output.getD []))

/-! ## Helper notions used by the statements and proofs -/

/-- Remove a single trailing carriage return.  `split(/\r?\n/)` eats a `\r`
only when a `\n` directly follows, so a line that ended in `\r` before a
join-with-`\n` loses it when the joined text is split again. -/
def dropTailCR (l : Str) : Str :=
  if l.getLast? = some '\r' then l.dropLast else l

/-- Every record of every parts document carries a string id. -/
def allIdsPresent (dirs : List ContextDir) : Prop :=
  ∀ d ∈ dirs, ∀ r ∈ d.parts, r.id.isSome = true

/-- Every blacklist id of every discovered directory. -/
def allBanIds (dirs : List ContextDir) : List Str :=
  dirs.foldr (fun d acc => d.banIds ++ acc) []

/-- The generator only returns ids that appear in no blacklist — the
freshness delivered by `generateCustomId`'s 80-plus random bits. -/
def freshGen (gen : Nat → Str) (dirs : List ContextDir) : Prop :=
  ∀ n, gen n ∉ allBanIds dirs

/-- Concrete-input helper: a raw record with the given id and file path and
no further fields. -/
def rpSimple (id fp : String) : RawPart :=
  ⟨some (str id), some (str fp), none, none, none⟩

/-! # Lemma layer -/

/-! ## Decimal rendering and parsing -/

theorem natToDecCore_append (f : Nat) : ∀ (n : Nat) (acc : Str),
    natToDecCore f n acc = natToDecCore f n [] ++ acc := by
  induction f with
  | zero => intro n acc; simp [natToDecCore]
  | succ f ih =>
    intro n acc
    by_cases h : n < 10
    · simp [natToDecCore, h]
    · simp only [natToDecCore, if_neg h]
      rw [ih (n / 10) (decDigit (n % 10) :: acc), ih (n / 10) (decDigit (n % 10) :: [])]
      simp

theorem natToDecCore_fuel (f : Nat) : ∀ (g n : Nat) (acc : Str), n < f → n < g →
    natToDecCore f n acc = natToDecCore g n acc := by
  induction f with
  | zero => intro g n acc hf; omega
  | succ f ih =>
    intro g n acc hf hg
    cases g with
    | zero => omega
    | succ g =>
      by_cases h : n < 10
      · simp [natToDecCore, h]
      · have hdiv : n / 10 < n := Nat.div_lt_self (by omega) (by omega)
        simp only [natToDecCore, if_neg h]
        exact ih g (n / 10) _ (by omega) (by omega)

theorem natToDec_lt10 (n : Nat) (h : n < 10) : natToDec n = [decDigit n] := by
  simp [natToDec, natToDecCore, h, Nat.mod_eq_of_lt h]

theorem natToDec_ge10 (n : Nat) (h : 10 ≤ n) :
    natToDec n = natToDec (n / 10) ++ [decDigit (n % 10)] := by
  have hdiv : n / 10 < n := Nat.div_lt_self (by omega) (by omega)
  conv_lhs => rw [natToDec]
  rw [show natToDecCore (n + 1) n [] = natToDecCore n (n / 10) (decDigit (n % 10) :: []) by
    simp [natToDecCore, Nat.not_lt.mpr h]]
  rw [natToDecCore_fuel n (n / 10 + 1) (n / 10) _ (by omega) (by omega),
    natToDecCore_append]
  rfl

theorem parseDecFrom_append (a : Nat) (xs ys : Str) :
    parseDecFrom a (xs ++ ys) = parseDecFrom (parseDecFrom a xs) ys := by
  simp [parseDecFrom, List.foldl_append]

theorem decDigit_val (d : Nat) (h : d < 10) : (decDigit d).toNat - 48 = d := by
  revert h; revert d; decide

theorem decDigit_isDigit (d : Nat) (h : d < 10) : (decDigit d).isDigit = true := by
  revert h; revert d; decide

theorem parseDec_natToDec (n : Nat) : parseDec (natToDec n) = n := by
  induction n using Nat.strong_induction_on with
  | _ n ih =>
    by_cases h : n < 10
    · rw [natToDec_lt10 n h]
      simp [parseDec, parseDecFrom, decDigit_val n h]
    · rw [natToDec_ge10 n (by omega)]
      rw [parseDec, parseDecFrom_append]
      have h1 : parseDecFrom 0 (natToDec (n / 10)) = n / 10 :=
        ih (n / 10) (Nat.div_lt_self (by omega) (by omega))
      have h2 : n % 10 < 10 := Nat.mod_lt n (by omega)
      have h3 := Nat.div_add_mod n 10
      simp [parseDecFrom, parseDec] at h1 ⊢
      rw [h1, decDigit_val _ h2]
      omega

theorem natToDec_all_digit (n : Nat) : ∀ c ∈ natToDec n, c.isDigit = true := by
  induction n using Nat.strong_induction_on with
  | _ n ih =>
    by_cases h : n < 10
    · rw [natToDec_lt10 n h]
      simpa using decDigit_isDigit n h
    · rw [natToDec_ge10 n (by omega)]
      intro c hc
      rcases List.mem_append.mp hc with hc | hc
      · exact ih (n / 10) (Nat.div_lt_self (by omega) (by omega)) c hc
      · have : c = decDigit (n % 10) := by simpa using hc
        subst this
        exact decDigit_isDigit _ (Nat.mod_lt n (by omega))

theorem natToDec_ne_nil (n : Nat) : natToDec n ≠ [] := by
  by_cases h : n < 10
  · rw [natToDec_lt10 n h]; simp
  · rw [natToDec_ge10 n (by omega)]; simp

theorem parseDecFrom_zeros (k : Nat) : parseDecFrom 0 (List.replicate k '0') = 0 := by
  induction k with
  | zero => rfl
  | succ k ih =>
    have : List.replicate (k + 1) '0' = '0' :: List.replicate k '0' := rfl
    rw [this]
    simpa [parseDecFrom] using ih

theorem parseDec_pad5 (n : Nat) : parseDec (pad5 n) = n := by
  unfold pad5
  by_cases h : (natToDec n).length < 5
  · simp only [if_pos h, parseDec, parseDecFrom_append, parseDecFrom_zeros]
    exact parseDec_natToDec n
  · simp only [if_neg h]
    exact parseDec_natToDec n

theorem pad5_all_digit (n : Nat) : ∀ c ∈ pad5 n, c.isDigit = true := by
  unfold pad5
  by_cases h : (natToDec n).length < 5 <;> simp only [if_pos, if_neg, h, if_true, if_false]
  · intro c hc
    rcases List.mem_append.mp hc with hc | hc
    · have : c = '0' := List.eq_of_mem_replicate hc
      subst this; decide
    · exact natToDec_all_digit n c hc
  · exact natToDec_all_digit n

theorem pad5_ne_nil (n : Nat) : pad5 n ≠ [] := by
  unfold pad5
  by_cases h : (natToDec n).length < 5 <;>
    simp [h, natToDec_ne_nil n]

/-! ## Splitting on line terminators -/

theorem splitLinesCL_lf (rest : Str) : splitLinesCL ('\n' :: rest) = [] :: splitLinesCL rest := rfl

theorem splitLinesCL_crlf (rest : Str) :
    splitLinesCL ('\r' :: '\n' :: rest) = [] :: splitLinesCL rest := rfl

theorem splitLinesCL_cons (c : Char) (rest : Str) (h1 : c ≠ '\n')
    (h2 : ∀ r2, ¬(c = '\r' ∧ rest = '\n' :: r2)) :
    splitLinesCL (c :: rest) =
      match splitLinesCL rest with
      | [] => [[c]]
      | l :: ls => (c :: l) :: ls := by
  rw [splitLinesCL.eq_def]
  split
  · simp_all
  · rename_i heq
    injection heq with hc hr
    exact absurd ⟨hc, hr⟩ (h2 _)
  · rename_i heq
    injection heq with hc
    exact absurd hc h1
  · rename_i heq
    injection heq with hc hr
    subst hc; subst hr
    rfl

theorem splitLinesCL_ne_nil (cs : Str) : splitLinesCL cs ≠ [] := by
  induction cs using splitLinesCL.induct with
  | case1 => simp [splitLinesCL]
  | case2 rest ih => simp [splitLinesCL_crlf]
  | case3 rest ih => simp [splitLinesCL_lf]
  | case4 c rest hne1 hne2 hsplit ih =>
    rw [splitLinesCL_cons c rest (fun h => hne2 h) (fun r2 ⟨hc, hr⟩ => hne1 r2 hc hr), hsplit]
    simp
  | case5 c rest hne1 hne2 l ls hsplit ih =>
    rw [splitLinesCL_cons c rest (fun h => hne2 h) (fun r2 ⟨hc, hr⟩ => hne1 r2 hc hr), hsplit]
    simp

theorem splitLinesCL_no_lf (cs : Str) : ∀ l ∈ splitLinesCL cs, '\n' ∉ l := by
  induction cs using splitLinesCL.induct with
  | case1 => simp [splitLinesCL]
  | case2 rest ih =>
    rw [splitLinesCL_crlf]
    intro l hl
    rcases List.mem_cons.mp hl with h | h
    · simp [h]
    · exact ih l h
  | case3 rest ih =>
    rw [splitLinesCL_lf]
    intro l hl
    rcases List.mem_cons.mp hl with h | h
    · simp [h]
    · exact ih l h
  | case4 c rest hne1 hne2 hsplit ih =>
    rw [splitLinesCL_cons c rest (fun h => hne2 h) (fun r2 ⟨hc, hr⟩ => hne1 r2 hc hr), hsplit]
    intro l hl
    have : l = [c] := by simpa using hl
    subst this
    simpa using fun h => hne2 h.symm
  | case5 c rest hne1 hne2 l ls hsplit ih =>
    rw [splitLinesCL_cons c rest (fun h => hne2 h) (fun r2 ⟨hc, hr⟩ => hne1 r2 hc hr), hsplit]
    intro l' hl'
    rcases List.mem_cons.mp hl' with h | h
    · subst h
      intro hmem
      rcases List.mem_cons.mp hmem with h | h
      · exact hne2 h.symm
      · exact ih l (by rw [hsplit]; exact List.mem_cons_self l ls) h
    · exact ih l' (by rw [hsplit]; exact List.mem_cons_of_mem l h)

theorem splitLinesCL_of_no_lf (a : Str) (h : '\n' ∉ a) : splitLinesCL a = [a] := by
  induction a with
  | nil => rfl
  | cons c rest ih =>
    have hc : c ≠ '\n' := fun hh => h (hh ▸ List.mem_cons_self c rest)
    have hrest : '\n' ∉ rest := fun hh => h (List.mem_cons_of_mem c hh)
    rw [splitLinesCL_cons c rest hc (fun r2 ⟨_, hr⟩ => hrest (hr ▸ List.mem_cons_self '\n' r2))]
    rw [ih hrest]

theorem dropTailCR_nil : dropTailCR [] = [] := rfl

theorem dropTailCR_cons (c : Char) (a : Str) (h : a ≠ []) :
    dropTailCR (c :: a) = c :: dropTailCR a := by
  unfold dropTailCR
  rcases List.exists_cons_of_ne_nil h with ⟨x, xs, rfl⟩
  rw [List.getLast?_cons_cons]
  by_cases hl : (x :: xs).getLast? = some '\r'
  · rw [if_pos hl, if_pos hl, List.dropLast_cons₂]
  · rw [if_neg hl, if_neg hl]

theorem dropTailCR_append (xs ys : Str) (h : ys ≠ []) :
    dropTailCR (xs ++ ys) = xs ++ dropTailCR ys := by
  induction xs with
  | nil => rfl
  | cons x xs ih =>
    have hne : xs ++ ys ≠ [] := fun hh => h (List.append_eq_nil.mp hh).2
    rw [List.cons_append, dropTailCR_cons x (xs ++ ys) hne, ih, List.cons_append]

theorem splitLinesCL_append_lf (a : Str) (h : '\n' ∉ a) (b : Str) :
    splitLinesCL (a ++ '\n' :: b) = dropTailCR a :: splitLinesCL b := by
  induction a with
  | nil => rw [List.nil_append, splitLinesCL_lf, dropTailCR_nil]
  | cons c a' ih =>
    have hc : c ≠ '\n' := fun hh => h (hh ▸ List.mem_cons_self c a')
    have ha' : '\n' ∉ a' := fun hh => h (List.mem_cons_of_mem c hh)
    by_cases hcr : c = '\r' ∧ a' = []
    · obtain ⟨rfl, rfl⟩ := hcr
      rw [show (['\r'] ++ '\n' :: b) = '\r' :: '\n' :: b from rfl, splitLinesCL_crlf]
      rfl
    · have h2 : ∀ r2, ¬(c = '\r' ∧ a' ++ '\n' :: b = '\n' :: r2) := by
        intro r2 ⟨hcc, hr⟩
        cases a' with
        | nil => exact hcr ⟨hcc, rfl⟩
        | cons x xs =>
          have : x = '\n' := by simpa using congrArg (fun l => l.headD ' ') hr
          exact ha' (this ▸ List.mem_cons_self x xs)
      rw [List.cons_append, splitLinesCL_cons c (a' ++ '\n' :: b) hc h2, ih ha']
      have hanil : dropTailCR (c :: a') = c :: dropTailCR a' := by
        cases a' with
        | nil =>
          have : c ≠ '\r' := fun hh => hcr ⟨hh, rfl⟩
          simp [dropTailCR, this]
        | cons x xs => exact dropTailCR_cons c (x :: xs) (by simp)
      rw [hanil]

theorem splitLinesCL_joinNL (ls : List Str) (hne : ls ≠ []) (h : ∀ l ∈ ls, '\n' ∉ l)
    (tail : Str) :
    splitLinesCL (joinNL ls ++ '\n' :: tail) = ls.map dropTailCR ++ splitLinesCL tail := by
  induction ls with
  | nil => exact absurd rfl hne
  | cons l ls ih =>
    cases ls with
    | nil =>
      rw [show joinNL [l] = l from rfl,
        splitLinesCL_append_lf l (h l (List.mem_cons_self l [])) tail]
      rfl
    | cons l' ls' =>
      rw [show joinNL (l :: l' :: ls') = l ++ '\n' :: joinNL (l' :: ls') from rfl]
      rw [List.append_assoc, List.cons_append,
        splitLinesCL_append_lf l (h l (List.mem_cons_self l _)) _,
        ih (by simp) (fun x hx => h x (List.mem_cons_of_mem l hx))]
      rfl

/-! ## The numbered-line pattern match -/

theorem takeWhile_all_append (p : Char → Bool) (xs : Str) (hx : ∀ x ∈ xs, p x = true)
    (c : Char) (hc : p c = false) (t : Str) :
    (xs ++ c :: t).takeWhile p = xs := by
  induction xs with
  | nil => simp [List.takeWhile_cons, hc]
  | cons x xs ih =>
    rw [List.cons_append, List.takeWhile_cons, hx x (List.mem_cons_self x xs)]
    rw [ih (fun y hy => hx y (List.mem_cons_of_mem x hy))]
    rfl

theorem dropWhile_all_append (p : Char → Bool) (xs : Str) (hx : ∀ x ∈ xs, p x = true)
    (c : Char) (hc : p c = false) (t : Str) :
    (xs ++ c :: t).dropWhile p = c :: t := by
  induction xs with
  | nil => simp [List.dropWhile_cons, hc]
  | cons x xs ih =>
    rw [List.cons_append, List.dropWhile_cons]
    rw [hx x (List.mem_cons_self x xs)]
    exact ih (fun y hy => hx y (List.mem_cons_of_mem x hy))

theorem lineNum_digits_pipe (ds : Str) (hd : ∀ c ∈ ds, c.isDigit = true) (hne : ds ≠ [])
    (t : Str) : lineNum (ds ++ '|' :: t) = some (parseDec ds) := by
  unfold lineNum
  rw [takeWhile_all_append Char.isDigit ds hd '|' (by decide) t,
    dropWhile_all_append Char.isDigit ds hd '|' (by decide) t]
  cases ds with
  | nil => exact absurd rfl hne
  | cons d ds => rfl

theorem lineNum_not_digit (c : Char) (h : c.isDigit = false) (t : Str) :
    lineNum (c :: t) = none := by
  unfold lineNum
  simp only [List.takeWhile_cons, h, if_neg (by decide : ¬(false = true))]

theorem lineNum_numbered (n : Nat) (l : Str) :
    lineNum (dropTailCR (pad5 n ++ '|' :: ' ' :: l)) = some n := by
  rw [dropTailCR_append _ _ (by simp), dropTailCR_cons '|' (' ' :: l) (by simp)]
  rw [lineNum_digits_pipe _ (pad5_all_digit n) (pad5_ne_nil n) _, parseDec_pad5]

/-! ## The minimum/maximum scan -/

theorem foldl_scan_filterMap (lines : List Str) : ∀ init,
    lines.foldl (fun acc l =>
      match lineNum l with
      | none => acc
      | some n => updMinMax acc n) init
      = (lines.filterMap lineNum).foldl updMinMax init := by
  induction lines with
  | nil => intro init; rfl
  | cons l ls ih =>
    intro init
    cases h : lineNum l <;> simp [List.foldl_cons, List.filterMap_cons, h, ih]

theorem filterMap_lineNum_numbered (lines : List Str) : ∀ k,
    ((numberFrom k lines).map dropTailCR).filterMap lineNum = List.range' k lines.length := by
  induction lines with
  | nil => intro k; rfl
  | cons l ls ih =>
    intro k
    rw [show numberFrom k (l :: ls) = (pad5 k ++ '|' :: ' ' :: l) :: numberFrom (k + 1) ls
      from rfl]
    rw [List.map_cons, List.filterMap_cons, lineNum_numbered k l, ih (k + 1)]
    rfl

theorem foldl_updMinMax_range (n : Nat) (h : 1 ≤ n) :
    (List.range' 1 n).foldl updMinMax (none, none) = (some 1, some n) := by
  induction n with
  | zero => omega
  | succ k ih =>
    rw [List.range'_concat 1 k, List.foldl_append]
    cases Nat.eq_zero_or_pos k with
    | inl hk => subst hk; rfl
    | inr hk =>
      rw [ih hk]
      have h1 : ¬ (1 + 1 * k < 1) := by omega
      have h2 : k < 1 + 1 * k := by omega
      simp [updMinMax, h1, h2, Nat.one_add]

/-! ## Splitting the rendered whole-file output back into lines -/

theorem numberFrom_no_lf (ls : List Str) (h : ∀ l ∈ ls, '\n' ∉ l) :
    ∀ k, ∀ x ∈ numberFrom k ls, '\n' ∉ x := by
  induction ls with
  | nil => intro k x hx; simp [numberFrom] at hx
  | cons l ls ih =>
    intro k x hx
    rcases List.mem_cons.mp hx with hx | hx
    · subst hx
      intro hmem
      rcases List.mem_append.mp hmem with hm | hm
      · have := pad5_all_digit k '\n' hm
        simp at this
      · rcases List.mem_cons.mp hm with hm | hm
        · exact absurd hm (by decide)
        · rcases List.mem_cons.mp hm with hm | hm
          · exact absurd hm (by decide)
          · exact h l (List.mem_cons_self l ls) hm
    · exact ih (fun y hy => h y (List.mem_cons_of_mem l hy)) (k + 1) x hx

theorem numberFrom_ne_nil (ls : List Str) (h : ls ≠ []) (k : Nat) : numberFrom k ls ≠ [] := by
  cases ls with
  | nil => exact absurd rfl h
  | cons l ls => simp [numberFrom]

theorem endLine_no_lf (n : Nat) :
    '\n' ∉ str "(End of file - total " ++ natToDec n ++ str " lines)" := by
  intro hmem
  rcases List.mem_append.mp hmem with hm | hm
  · rcases List.mem_append.mp hm with hm | hm
    · exact absurd hm (by decide)
    · have := natToDec_all_digit n '\n' hm
      simp at this
  · exact absurd hm (by decide)

theorem endLine_dropTailCR (n : Nat) :
    dropTailCR (str "(End of file - total " ++ natToDec n ++ str " lines)")
      = str "(End of file - total " ++ natToDec n ++ str " lines)" := by
  rw [dropTailCR_append _ _ (by decide)]
  rfl

theorem endLine_lineNum (n : Nat) :
    lineNum (str "(End of file - total " ++ natToDec n ++ str " lines)") = none := by
  rw [show str "(End of file - total " = '(' :: str "End of file - total " from rfl]
  rw [List.cons_append, List.cons_append]
  exact lineNum_not_digit '(' (by decide) _

theorem splitLinesCL_format_output (text : Str) :
    splitLinesCL (formatFileWithNumbers (some text)).output
      = str "<file>" :: ((numberFrom 1 (splitLinesCL text)).map dropTailCR
          ++ [] :: (str "(End of file - total " ++ natToDec (splitLinesCL text).length
              ++ str " lines)") :: [str "</file>"]) := by
  have h0 : (formatFileWithNumbers (some text)).output
      = str "<file>" ++ '\n' :: joinNL (numberFrom 1 (splitLinesCL text))
          ++ '\n' :: '\n' :: (str "(End of file - total "
              ++ natToDec (splitLinesCL text).length ++ str " lines)")
          ++ '\n' :: str "</file>" := rfl
  have h1 : (formatFileWithNumbers (some text)).output
      = str "<file>" ++ '\n' :: (joinNL (numberFrom 1 (splitLinesCL text))
          ++ '\n' :: ('\n' :: ((str "(End of file - total "
              ++ natToDec (splitLinesCL text).length ++ str " lines)")
          ++ '\n' :: str "</file>"))) := by
    rw [h0]
    simp [List.append_assoc]
  rw [h1]
  rw [splitLinesCL_append_lf (str "<file>") (by decide)]
  rw [splitLinesCL_joinNL (numberFrom 1 (splitLinesCL text))
    (numberFrom_ne_nil _ (splitLinesCL_ne_nil text) 1)
    (numberFrom_no_lf _ (splitLinesCL_no_lf text) 1)]
  rw [splitLinesCL_lf]
  rw [splitLinesCL_append_lf _ (endLine_no_lf (splitLinesCL text).length)]
  rw [endLine_dropTailCR]
  rw [show splitLinesCL (str "</file>") = [str "</file>"] from by decide]
  rfl

theorem filterMap_lineNum_format (text : Str) :
    (splitLinesCL (formatFileWithNumbers (some text)).output).filterMap lineNum
      = List.range' 1 (splitLinesCL text).length := by
  rw [splitLinesCL_format_output]
  rw [List.filterMap_cons, show lineNum (str "<file>") = none from by decide]
  rw [List.filterMap_append, filterMap_lineNum_numbered]
  rw [List.filterMap_cons, show lineNum [] = none from rfl]
  rw [List.filterMap_cons, endLine_lineNum]
  rw [show List.filterMap lineNum [str "</file>"] = [] from by decide]
  simp

/-! # Claim C5: round-trip of line numbering -/

/-- C5.  For every readable file text, rendering with `formatFileWithNumbers`
and re-deriving line ranges from the rendered output yields exactly one
0-based inclusive range `(0, N - 1)`, where `N` is the file's line count;
in particular `getLineRangesForFile` on an index holding exactly that part
returns `[(0, N - 1)]`. -/
theorem roundtrip_line_numbering (text : Str) :
    partRange (formatFileWithNumbers (some text)).output
      = some (0, (formatFileWithNumbers (some text)).lineCount - 1) ∧
    ∀ (id fp : Str) (tm : Option Bool) (ts : Option Int),
      getLineRangesForFile
          ⟨[], [⟨id, fp, some (formatFileWithNumbers (some text)).output, tm, ts⟩], 0⟩ fp
        = [(0, (formatFileWithNumbers (some text)).lineCount - 1)] := by
  have hN : 1 ≤ (splitLinesCL text).length :=
    List.length_pos.mpr (splitLinesCL_ne_nil text)
  have hcount : (formatFileWithNumbers (some text)).lineCount
      = (splitLinesCL text).length := rfl
  have hmain : partRange (formatFileWithNumbers (some text)).output
      = some (0, (splitLinesCL text).length - 1) := by
    simp only [partRange]
    rw [foldl_scan_filterMap, filterMap_lineNum_format, foldl_updMinMax_range _ hN]
  constructor
  · rw [hmain, hcount]
  · intro id fp tm ts
    rw [hcount]
    simp [getLineRangesForFile, partsForFile, hmain]

/-! ## Projection equations of `formatFileWithNumbers` -/

theorem fmt_truncated_eq (text : Str) :
    (formatFileWithNumbers (some text)).truncated
      = decide (1000 < (joinNL (splitLinesCL text)).length) := rfl

theorem fmt_lineCount_eq (text : Str) :
    (formatFileWithNumbers (some text)).lineCount = (splitLinesCL text).length := rfl

theorem addFilePart_some (read : Option Str) (r fp freshId : Str) (now : Int)
    (doc : List RawPart) (h : (formatFileWithNumbers read).lineCount ≠ 0) :
    addFilePart read (some r) fp freshId now doc =
      ⟨some ⟨some freshId, some fp, some (formatFileWithNumbers read).output,
          some false, some now⟩,
        doc ++ [⟨some freshId, some fp, some (formatFileWithNumbers read).output,
          some false, some now⟩],
        true⟩ := by
  simp [addFilePart, h]

/-! # Claim C9: read failure degrades to a no-op -/

/-- C9.  A failed file read makes `formatFileWithNumbers` return the
empty/zero record rather than raising, and a whole-file capture of an
unreadable path creates no part record, performs no write, and leaves the
parts document unchanged (the in-memory state is then rebuilt from the
unchanged documents by the trailing reconcile). -/
theorem read_failure_noop :
    formatFileWithNumbers none = ⟨[], [], false, 0⟩ ∧
    ∀ (root : Option Str) (fp freshId : Str) (now : Int) (doc : List RawPart),
      addFilePart none root fp freshId now doc = ⟨none, doc, false⟩ := by
  constructor
  · rfl
  · intro root fp freshId now doc
    cases root with
    | none => rfl
    | some r => rfl

/-! # Claim C3: the persisted `truncated` flag of whole-file captures -/

/-- C3 counterexample.  A readable file whose raw body is 1001 characters
exceeds the 1000-character preview cap (`formatFileWithNumbers` reports
`truncated = true`), yet the part record `addFilePart` persists carries
`metadata.truncated = false`: line 427 hardcodes `truncated: false` and
discards the computed flag. -/
theorem addFilePart_truncated_cx :
    (formatFileWithNumbers (some (List.replicate 1001 'a'))).truncated = true ∧
    ((addFilePart (some (List.replicate 1001 'a')) (some (str "/r")) (str "/r/f")
        (str "p1") 0 []).part.map (fun p => p.truncMeta)) = some (some false) := by
  have hnl : '\n' ∉ List.replicate 1001 'a' := by
    intro h
    have := List.eq_of_mem_replicate h
    simp at this
  have hsplit : splitLinesCL (List.replicate 1001 'a') = [List.replicate 1001 'a'] :=
    splitLinesCL_of_no_lf _ hnl
  have htr : (formatFileWithNumbers (some (List.replicate 1001 'a'))).truncated = true := by
    rw [fmt_truncated_eq, hsplit,
      show joinNL [List.replicate 1001 'a'] = List.replicate 1001 'a' from rfl,
      List.length_replicate]
    decide
  have hlc : (formatFileWithNumbers (some (List.replicate 1001 'a'))).lineCount = 1 := by
    rw [fmt_lineCount_eq, hsplit]
    rfl
  refine ⟨htr, ?_⟩
  rw [addFilePart_some _ _ _ _ _ _ (by rw [hlc]; omega)]
  rfl

/-- C3 amended.  Every part record `addFilePart` persists has
`metadata.truncated = false` regardless of the file's length (the capture
always represents the entire file); the over-length condition — raw
unnumbered body longer than 1000 characters — is reported only in the
`truncated` flag that `formatFileWithNumbers` computes alongside the
preview. -/
theorem addFilePart_truncated_amended :
    (∀ (read root : Option Str) (fp freshId : Str) (now : Int) (doc : List RawPart),
      (addFilePart read root fp freshId now doc).wrote = true →
      ∃ p, (addFilePart read root fp freshId now doc).part = some p ∧
        p.truncMeta = some false) ∧
    ∀ text : Str, (formatFileWithNumbers (some text)).truncated
      = decide (1000 < (joinNL (splitLinesCL text)).length) := by
  constructor
  · intro read root fp freshId now doc hw
    cases root with
    | none => simp [addFilePart] at hw
    | some r =>
      by_cases h : (formatFileWithNumbers read).lineCount = 0
      · simp [addFilePart, h] at hw
      · refine ⟨⟨some freshId, some fp, some (formatFileWithNumbers read).output,
          some false, some now⟩, ?_, rfl⟩
        simp [addFilePart, h]
  · intro text
    rfl

/-- C3 amended, witness: a concrete capture persists `truncated = false`. -/
theorem addFilePart_truncated_amended_witness :
    ∃ p, (addFilePart (some (str "hi")) (some (str "/r")) (str "/r/f") (str "i") 0 []).part
        = some p ∧ p.truncMeta = some false :=
  addFilePart_truncated_amended.1 (some (str "hi")) (some (str "/r")) (str "/r/f")
    (str "i") 0 [] (by decide)

/-! # Claim C6: selection boundary policy -/

/-- C6.  A non-empty selection ending at column 0 strictly below its start
line captures through the line before that boundary; when the effective end
line precedes the start line the capture is a silent no-op; and in a 5-line
document a selection from line 2 column 0 to line 4 column 0 captures lines
2-3 with `truncated = true`. -/
theorem selection_boundary :
    (∀ (docLines : List Str) (sel : Sel), sel.start ≠ sel.stop →
      sel.stop.character = 0 → sel.start.line < sel.stop.line →
      (selectionCapture docLines sel).map (fun r => (r.startLine, r.endLine))
        = some (sel.start.line, sel.stop.line - 1)) ∧
    (∀ (docLines : List Str) (sel : Sel), sel.start ≠ sel.stop →
      effEndLine sel < sel.start.line → selectionCapture docLines sel = none) ∧
    ((selectionCapture [str "l0", str "l1", str "l2", str "l3", str "l4"]
        ⟨⟨2, 0⟩, ⟨4, 0⟩⟩).map (fun r => (r.startLine, r.endLine, r.truncated))
      = some (2, 3, true)) := by
  refine ⟨?_, ?_, by decide⟩
  · intro docLines sel hne hchar hlt
    have heff : effEndLine sel = sel.stop.line - 1 := by
      simp [effEndLine, hchar, hlt]
    have hge : ¬ (effEndLine sel < sel.start.line) := by
      rw [heff]; omega
    simp only [selectionCapture, if_neg hne, if_neg hge]
    rw [heff]
    rfl
  · intro docLines sel hne hlt
    simp only [selectionCapture, if_neg hne, if_pos hlt]

/-- C6 witness: the boundary adjustment and the no-op branch at concrete
inputs. -/
theorem selection_boundary_witness :
    ((selectionCapture [str "a", str "b", str "c", str "d", str "e"]
        ⟨⟨2, 0⟩, ⟨4, 0⟩⟩).map (fun r => (r.startLine, r.endLine)) = some (2, 3)) ∧
    selectionCapture [str "a"] ⟨⟨4, 1⟩, ⟨3, 0⟩⟩ = none :=
  ⟨selection_boundary.1 [str "a", str "b", str "c", str "d", str "e"]
      ⟨⟨2, 0⟩, ⟨4, 0⟩⟩ (by decide) rfl (by decide),
   selection_boundary.2.1 [str "a"] ⟨⟨4, 1⟩, ⟨3, 0⟩⟩ (by decide) (by decide)⟩

/-! # Claim C4: appending to a parts document -/

/-- C4 counterexample.  Capturing a file when the generated id already
exists in the document (here both are `"x"`): `addFilePart` pushes the new
record at the end, so the record count increases from 1 to 2, the old
record survives unreplaced, and the rewritten document is not sorted by
`filePath` (`"/r/b"` precedes `"/r/a"`). -/
theorem appendParts_upsert_cx :
    ((addFilePart (some (str "t")) (some (str "/r")) (str "/r/a") (str "x") 0
        [rpSimple "x" "/r/b"]).part.map (fun p => p.id) = some (some (str "x"))) ∧
    (addFilePart (some (str "t")) (some (str "/r")) (str "/r/a") (str "x") 0
        [rpSimple "x" "/r/b"]).doc.length = 2 ∧
    rpSimple "x" "/r/b" ∈ (addFilePart (some (str "t")) (some (str "/r")) (str "/r/a")
        (str "x") 0 [rpSimple "x" "/r/b"]).doc ∧
    ¬ List.Sorted fpOrd (addFilePart (some (str "t")) (some (str "/r")) (str "/r/a")
        (str "x") 0 [rpSimple "x" "/r/b"]).doc := by
  refine ⟨by decide, by decide, by decide, by decide⟩

/-- C4 amended.  `addFilePart` (and the selection capture, which persists
identically) appends the new record at the end of the document without
merging or sorting; the replace-by-id upsert and the sort by `filePath`
happen in `writeCheckedFile`'s rewrite instead: its per-id `Map.set` keeps
the record count unchanged when the id exists, and its rewritten document
is sorted by `filePath`. -/
theorem appendParts_amended :
    (∀ (read root : Option Str) (fp freshId : Str) (now : Int) (doc : List RawPart),
      (addFilePart read root fp freshId now doc).wrote = true →
      ∃ p, (addFilePart read root fp freshId now doc).part = some p ∧
        (addFilePart read root fp freshId now doc).doc = doc ++ [p]) ∧
    (∀ (m : List RawPart) (p : RawPart),
      m.any (fun q => decide (q.id = p.id)) = true →
      (upsertById m p).length = m.length ∧ p ∈ upsertById m p) ∧
    (∀ doc : List RawPart, List.Sorted fpOrd (writeCheckedParts doc)) := by
  refine ⟨?_, ?_, ?_⟩
  · intro read root fp freshId now doc hw
    cases root with
    | none => simp [addFilePart] at hw
    | some r =>
      by_cases h : (formatFileWithNumbers read).lineCount = 0
      · simp [addFilePart, h] at hw
      · rw [addFilePart_some read r fp freshId now doc h]
        exact ⟨_, rfl, rfl⟩
  · intro m p h
    unfold upsertById
    rw [if_pos h]
    refine ⟨List.length_map m _, ?_⟩
    obtain ⟨q, hq, hid⟩ := List.any_eq_true.mp h
    have hmem : (if q.id = p.id then p else q)
        ∈ m.map (fun q2 => if q2.id = p.id then p else q2) :=
      List.mem_map_of_mem _ hq
    rwa [if_pos (of_decide_eq_true hid)] at hmem
  · intro doc
    exact List.sorted_insertionSort fpOrd _

/-- C4 amended, witness: a concrete push-append and a concrete in-place
upsert. -/
theorem appendParts_amended_witness :
    (∃ p, (addFilePart (some (str "t")) (some (str "/r")) (str "/r/f") (str "i") 0 []).part
        = some p ∧
      (addFilePart (some (str "t")) (some (str "/r")) (str "/r/f") (str "i") 0 []).doc
        = [] ++ [p]) ∧
    ((upsertById [rpSimple "x" "/r/b"] (rpSimple "x" "/r/a")).length
        = [rpSimple "x" "/r/b"].length ∧
      rpSimple "x" "/r/a" ∈ upsertById [rpSimple "x" "/r/b"] (rpSimple "x" "/r/a")) :=
  ⟨appendParts_amended.1 (some (str "t")) (some (str "/r")) (str "/r/f") (str "i") 0 []
      (by decide),
   appendParts_amended.2.1 [rpSimple "x" "/r/b"] (rpSimple "x" "/r/a") (by decide)⟩

/-! # Claim C8: `banAll` returns the count of newly banned ids -/

theorem banAllCount_fold (l : List ToolPart) : ∀ (b : List Str) (n : Nat),
    (l.foldl (fun acc p => if p.id ∈ acc.1 then acc else (acc.1 ++ [p.id], acc.2 + 1))
        (b, n)).2 + b.length
      = (l.foldl (fun acc p => if p.id ∈ acc.1 then acc else (acc.1 ++ [p.id], acc.2 + 1))
        (b, n)).1.length + n := by
  induction l with
  | nil => intro b n; simp [Nat.add_comm]
  | cons p l ih =>
    intro b n
    rw [List.foldl_cons]
    by_cases h : p.id ∈ b
    · simp only [if_pos h]
      exact ih b n
    · simp only [if_neg h]
      have := ih (b ++ [p.id]) (n + 1)
      simp only [List.length_append, List.length_cons, List.length_nil] at this
      omega

theorem banAllCount_fold_noop (l : List ToolPart) : ∀ (b : List Str) (n : Nat),
    (∀ p ∈ l, p.id ∈ b) →
    l.foldl (fun acc p => if p.id ∈ acc.1 then acc else (acc.1 ++ [p.id], acc.2 + 1))
      (b, n) = (b, n) := by
  induction l with
  | nil => intro b n _; rfl
  | cons p l ih =>
    intro b n h
    rw [List.foldl_cons, if_pos (h p (List.mem_cons_self p l))]
    exact ih b n (fun q hq => h q (List.mem_cons_of_mem p hq))

/-- C8.  `banAllParts` blacklists every indexed id not yet banned and
returns the count of additions (new blacklist length minus old), not the
total blacklist size: on an index with 3 active parts and 1 already-banned
part it returns 3 while the blacklist ends at size 4; it returns 0 and
changes nothing (so no write occurs, the source persisting only when
`added > 0`) when every indexed id is already banned — in particular on the
reconciled state of a store whose only part is tombstoned. -/
theorem banAll_count :
    (∀ s : SyncState, (banAllCount s).2 + s.banned.length = (banAllCount s).1.length) ∧
    (∀ s : SyncState, (∀ p ∈ s.index, p.id ∈ s.banned) → banAllCount s = (s.banned, 0)) ∧
    ((banAllCount (syncCore (fun _ => []) [str "/r"]
        [⟨[str "b1"], [rpSimple "b1" "/r/f0", rpSimple "p1" "/r/f1",
          rpSimple "p2" "/r/f2", rpSimple "p3" "/r/f3"]⟩] 0)).2 = 3 ∧
      (banAllCount (syncCore (fun _ => []) [str "/r"]
        [⟨[str "b1"], [rpSimple "b1" "/r/f0", rpSimple "p1" "/r/f1",
          rpSimple "p2" "/r/f2", rpSimple "p3" "/r/f3"]⟩] 0)).1.length = 4) ∧
    banAllCount (syncCore (fun _ => []) [str "/r"] [⟨[str "q"], [rpSimple "q" "/r/f"]⟩] 0)
      = ((syncCore (fun _ => []) [str "/r"] [⟨[str "q"], [rpSimple "q" "/r/f"]⟩] 0).banned,
        0) := by
  refine ⟨?_, ?_, ⟨by decide, by decide⟩, by decide⟩
  · intro s
    exact banAllCount_fold s.index s.banned 0
  · intro s h
    exact banAllCount_fold_noop s.index s.banned 0 h

/-- C8 witness: the already-all-banned branch at a concrete reconciled
state. -/
theorem banAll_count_witness :
    banAllCount (syncCore (fun _ => [] : Nat → Str) [str "/q"]
        [⟨[str "a"], [rpSimple "a" "/q/f"]⟩] 0)
      = ((syncCore (fun _ => [] : Nat → Str) [str "/q"]
        [⟨[str "a"], [rpSimple "a" "/q/f"]⟩] 0).banned, 0) :=
  banAll_count.2.1 _ (by decide)

/-! # Claim C2: tombstone monotonicity -/

theorem scanParts_mem (gen : Nat → Str) (roots : List Str) (lb b : List Str) :
    ∀ (rs : List RawPart) (c : Nat) (p : ToolPart),
      p ∈ (scanParts gen roots lb b rs c).1 → ¬ (p.id ∈ lb ∨ p.id ∈ b) := by
  intro rs
  induction rs with
  | nil =>
    intro c p hp
    simp [scanParts] at hp
  | cons r rest ih =>
    intro c p hp
    cases hfp : r.filePath with
    | none =>
      simp only [scanParts, hfp] at hp
      exact ih c p hp
    | some fp =>
      cases hid : r.id with
      | some i =>
        simp only [scanParts, hfp, hid] at hp
        by_cases hmem : i ∈ lb ∨ i ∈ b
        · rw [if_pos hmem] at hp
          exact ih c p hp
        · rw [if_neg hmem] at hp
          by_cases hroot : underSomeRoot roots fp = true
          · rw [if_pos hroot] at hp
            rcases List.mem_cons.mp hp with hp | hp
            · subst hp
              exact hmem
            · exact ih (c : Nat) p hp
          · rw [if_neg hroot] at hp
            exact ih c p hp
      | none =>
        simp only [scanParts, hfp, hid] at hp
        by_cases hmem : gen c ∈ lb ∨ gen c ∈ b
        · rw [if_pos hmem] at hp
          exact ih (c + 1) p hp
        · rw [if_neg hmem] at hp
          by_cases hroot : underSomeRoot roots fp = true
          · rw [if_pos hroot] at hp
            rcases List.mem_cons.mp hp with hp | hp
            · subst hp
              exact hmem
            · exact ih (c + 1) p hp
          · rw [if_neg hroot] at hp
            exact ih (c + 1) p hp

theorem syncDirs_mem_not_banned (gen : Nat → Str) (roots : List Str) (x : Str) :
    ∀ (dirs : List ContextDir) (banned : List Str) (c : Nat),
      (∀ d ∈ dirs, x ∈ d.banIds) →
      ∀ p ∈ (syncDirs gen roots dirs banned c).index, p.id ≠ x := by
  intro dirs
  induction dirs with
  | nil =>
    intro banned c _ p hp
    simp [syncDirs] at hp
  | cons d ds ih =>
    intro banned c h p hp
    simp only [syncDirs] at hp
    rcases List.mem_append.mp hp with hp | hp
    · intro hx
      exact scanParts_mem gen roots d.banIds _ d.parts c p hp
        (Or.inl (hx ▸ h d (List.mem_cons_self d ds)))
    · exact ih _ _ (fun d2 hd2 => h d2 (List.mem_cons_of_mem d hd2)) p hp

/-- C2.  Once an id sits in the persisted blacklist — which, after a
successful `banPart`, holds for the blacklist document of every root the
scan reads, because `writeCheckedFile` writes the banned set to each of
them — every subsequent reconcile excludes every part record carrying that
id, whatever the parts documents contain (however often they were re-read
or re-appended with the id): no indexed part, and no part in any file's
`partsFor` bucket, bears it. -/
theorem tombstone_monotonic (gen : Nat → Str) (roots : List Str) (dirs : List ContextDir)
    (c : Nat) (bannedId : Str) (hban : ∀ d ∈ dirs, bannedId ∈ d.banIds) :
    (∀ p ∈ (syncCore gen roots dirs c).index, p.id ≠ bannedId) ∧
    ∀ fp, ∀ p ∈ partsForFile (syncCore gen roots dirs c) fp, p.id ≠ bannedId := by
  have h1 := syncDirs_mem_not_banned gen roots bannedId dirs [] c hban
  exact ⟨h1, fun fp p hp => h1 p (List.mem_of_mem_filter hp)⟩

/-- C2 witness: a tombstoned record re-appearing in the parts document is
not indexed by the reconcile of the post-ban on-disk state. -/
theorem tombstone_monotonic_witness :
    (⟨str "x", str "/r/f", none, none, none⟩ : ToolPart)
      ∉ (syncCore (fun _ => []) [str "/r"] [⟨[str "x"], [rpSimple "x" "/r/f"]⟩] 0).index :=
  fun h =>
    (tombstone_monotonic (fun _ => []) [str "/r"] [⟨[str "x"], [rpSimple "x" "/r/f"]⟩] 0
      (str "x") (by decide)).1 _ h rfl

/-! # Claim C1: idempotence of reconciliation -/

theorem scanParts_allIds_counter (gen : Nat → Str) (roots lb b : List Str) :
    ∀ (rs : List RawPart) (c : Nat), (∀ r ∈ rs, r.id.isSome = true) →
      (scanParts gen roots lb b rs c).2 = c := by
  intro rs
  induction rs with
  | nil => intro c _; rfl
  | cons r rest ih =>
    intro c h
    cases hfp : r.filePath with
    | none =>
      simp only [scanParts, hfp]
      exact ih c (fun q hq => h q (List.mem_cons_of_mem r hq))
    | some fp =>
      cases hid : r.id with
      | none =>
        have := h r (List.mem_cons_self r rest)
        rw [hid] at this
        simp at this
      | some i =>
        have htail : ∀ q ∈ rest, q.id.isSome = true :=
          fun q hq => h q (List.mem_cons_of_mem r hq)
        simp only [scanParts, hfp, hid]
        by_cases hmem : i ∈ lb ∨ i ∈ b
        · rw [if_pos hmem]; exact ih c htail
        · rw [if_neg hmem]
          by_cases hroot : underSomeRoot roots fp = true
          · rw [if_pos hroot]; exact ih c htail
          · rw [if_neg hroot]; exact ih c htail

theorem scanParts_allIds_parts (gen gen' : Nat → Str) (roots lb b : List Str) :
    ∀ (rs : List RawPart) (c c' : Nat), (∀ r ∈ rs, r.id.isSome = true) →
      (scanParts gen roots lb b rs c).1 = (scanParts gen' roots lb b rs c').1 := by
  intro rs
  induction rs with
  | nil => intro c c' _; rfl
  | cons r rest ih =>
    intro c c' h
    have htail : ∀ q ∈ rest, q.id.isSome = true :=
      fun q hq => h q (List.mem_cons_of_mem r hq)
    cases hfp : r.filePath with
    | none =>
      simp only [scanParts, hfp]
      exact ih c c' htail
    | some fp =>
      cases hid : r.id with
      | none =>
        have := h r (List.mem_cons_self r rest)
        rw [hid] at this
        simp at this
      | some i =>
        simp only [scanParts, hfp, hid]
        by_cases hmem : i ∈ lb ∨ i ∈ b
        · rw [if_pos hmem, if_pos hmem]; exact ih c c' htail
        · rw [if_neg hmem, if_neg hmem]
          by_cases hroot : underSomeRoot roots fp = true
          · rw [if_pos hroot, if_pos hroot, ih c c' htail]
          · rw [if_neg hroot, if_neg hroot]; exact ih c c' htail

theorem syncDirs_banned_eq (gen gen' : Nat → Str) (roots roots' : List Str) :
    ∀ (dirs : List ContextDir) (banned : List Str) (c c' : Nat),
      (syncDirs gen roots dirs banned c).banned
        = (syncDirs gen' roots' dirs banned c').banned := by
  intro dirs
  induction dirs with
  | nil => intro banned c c'; rfl
  | cons d ds ih =>
    intro banned c c'
    simp only [syncDirs]
    exact ih (addAll banned d.banIds) _ _

theorem syncDirs_allIds_index (gen gen' : Nat → Str) (roots : List Str) :
    ∀ (dirs : List ContextDir) (banned : List Str) (c c' : Nat),
      (∀ d ∈ dirs, ∀ r ∈ d.parts, r.id.isSome = true) →
      (syncDirs gen roots dirs banned c).index
        = (syncDirs gen' roots dirs banned c').index := by
  intro dirs
  induction dirs with
  | nil => intro banned c c' _; rfl
  | cons d ds ih =>
    intro banned c c' h
    simp only [syncDirs]
    rw [scanParts_allIds_parts gen gen' roots d.banIds _ d.parts c c'
      (h d (List.mem_cons_self d ds))]
    rw [ih (addAll banned d.banIds) _ _ (fun d2 hd2 => h d2 (List.mem_cons_of_mem d hd2))]

theorem mem_addAll (b : List Str) (xs : List Str) (y : Str) :
    y ∈ addAll b xs → y ∈ b ∨ y ∈ xs := by
  induction xs generalizing b with
  | nil => intro h; exact Or.inl h
  | cons x xs ih =>
    intro h
    rcases ih (addIfAbsent b x) h with h2 | h2
    · unfold addIfAbsent at h2
      by_cases hx : x ∈ b
      · rw [if_pos hx] at h2; exact Or.inl h2
      · rw [if_neg hx] at h2
        rcases List.mem_append.mp h2 with h3 | h3
        · exact Or.inl h3
        · exact Or.inr (by simpa using Or.inl (by simpa using h3))
    · exact Or.inr (List.mem_cons_of_mem x h2)

theorem mem_allBanIds (dirs : List ContextDir) (d : ContextDir) (y : Str)
    (hd : d ∈ dirs) (hy : y ∈ d.banIds) : y ∈ allBanIds dirs := by
  induction dirs with
  | nil => simp at hd
  | cons d2 ds ih =>
    rcases List.mem_cons.mp hd with h | h
    · subst h
      exact List.mem_append.mpr (Or.inl hy)
    · exact List.mem_append.mpr (Or.inr (ih h))

theorem scanParts_fresh_fp (gen gen' : Nat → Str) (roots : List Str) (S : List Str)
    (lb b : List Str) (hlb : ∀ y ∈ lb, y ∈ S) (hb : ∀ y ∈ b, y ∈ S)
    (hg : ∀ n, gen n ∉ S) (hg' : ∀ n, gen' n ∉ S) :
    ∀ (rs : List RawPart) (c c' : Nat),
      (scanParts gen roots lb b rs c).1.map (fun p => p.filePath)
        = (scanParts gen' roots lb b rs c').1.map (fun p => p.filePath) := by
  intro rs
  induction rs with
  | nil => intro c c'; rfl
  | cons r rest ih =>
    intro c c'
    cases hfp : r.filePath with
    | none =>
      simp only [scanParts, hfp]
      exact ih c c'
    | some fp =>
      cases hid : r.id with
      | some i =>
        simp only [scanParts, hfp, hid]
        by_cases hmem : i ∈ lb ∨ i ∈ b
        · rw [if_pos hmem, if_pos hmem]; exact ih c c'
        · rw [if_neg hmem, if_neg hmem]
          by_cases hroot : underSomeRoot roots fp = true
          · rw [if_pos hroot, if_pos hroot]
            simp only [List.map_cons]
            rw [ih c c']
          · rw [if_neg hroot, if_neg hroot]; exact ih c c'
      | none =>
        simp only [scanParts, hfp, hid]
        have hm1 : ¬ (gen c ∈ lb ∨ gen c ∈ b) :=
          fun h => hg c (h.elim (hlb _) (hb _))
        have hm2 : ¬ (gen' c' ∈ lb ∨ gen' c' ∈ b) :=
          fun h => hg' c' (h.elim (hlb _) (hb _))
        rw [if_neg hm1, if_neg hm2]
        by_cases hroot : underSomeRoot roots fp = true
        · rw [if_pos hroot, if_pos hroot]
          simp only [List.map_cons]
          rw [ih (c + 1) (c' + 1)]
        · rw [if_neg hroot, if_neg hroot]; exact ih (c + 1) (c' + 1)

theorem syncDirs_fresh_fp (gen gen' : Nat → Str) (roots : List Str) (S : List Str)
    (hg : ∀ n, gen n ∉ S) (hg' : ∀ n, gen' n ∉ S) :
    ∀ (dirs : List ContextDir) (banned : List Str) (c c' : Nat),
      (∀ y ∈ banned, y ∈ S) → (∀ d ∈ dirs, ∀ y ∈ d.banIds, y ∈ S) →
      (syncDirs gen roots dirs banned c).index.map (fun p => p.filePath)
        = (syncDirs gen' roots dirs banned c').index.map (fun p => p.filePath) := by
  intro dirs
  induction dirs with
  | nil => intro banned c c' _ _; rfl
  | cons d ds ih =>
    intro banned c c' hbanned hdirs
    have hlb : ∀ y ∈ d.banIds, y ∈ S := hdirs d (List.mem_cons_self d ds)
    have hb : ∀ y ∈ addAll banned d.banIds, y ∈ S :=
      fun y hy => (mem_addAll banned d.banIds y hy).elim (hbanned y) (hlb y)
    simp only [syncDirs, List.map_append]
    rw [scanParts_fresh_fp gen gen' roots S d.banIds _ hlb hb hg hg' d.parts c c']
    rw [ih (addAll banned d.banIds) _ _ hb
      (fun d2 hd2 => hdirs d2 (List.mem_cons_of_mem d hd2))]

theorem filter_fp_isEmpty (l : List ToolPart) (fp : Str) :
    (l.filter (fun p => decide (p.filePath = fp))).isEmpty
      = ((l.map (fun p => p.filePath)).filter (fun q => decide (q = fp))).isEmpty := by
  induction l with
  | nil => rfl
  | cons p l ih =>
    by_cases h : p.filePath = fp <;>
      simp [List.filter_cons, h, ih]

theorem isCheckedB_eq_of_fp (s t : SyncState)
    (h : s.index.map (fun p => p.filePath) = t.index.map (fun p => p.filePath))
    (fp : Str) : isCheckedB s fp = isCheckedB t fp := by
  unfold isCheckedB partsForFile
  rw [filter_fp_isEmpty, filter_fp_isEmpty, h]

theorem getChildrenForPath_eq_of_fp (s t : SyncState)
    (h : s.index.map (fun p => p.filePath) = t.index.map (fun p => p.filePath))
    (base : Str) : getChildrenForPath s base = getChildrenForPath t base := by
  unfold getChildrenForPath keysOf
  rw [h]

/-- C1 counterexample.  A parts document holding one record with a missing
id: the reconcile scan normalizes it with a freshly generated id, so the
second run (resuming at the counter the first run left) indexes the record
under a different id, and `partsFor` — whose result records include each
part's id — differs between the two runs although the disk did not change. -/
theorem reconcile_idempotence_cx :
    partsForIds
        (syncCore natToDec [str "/r"]
          [⟨[], [⟨none, some (str "/r/a"), none, none, none⟩]⟩] 0) (str "/r/a")
      ≠ partsForIds
        (syncCore natToDec [str "/r"]
          [⟨[], [⟨none, some (str "/r/a"), none, none, none⟩]⟩]
          ((syncCore natToDec [str "/r"]
            [⟨[], [⟨none, some (str "/r/a"), none, none, none⟩]⟩] 0).counter))
        (str "/r/a") := by
  decide

/-- C1 amended.  Reconciliation is idempotent whenever every part record
carries a string id: two runs (any generator states) rebuild identical
`banned` sets and identical indexes, hence identical `partsFor`,
`childrenOf` and `isActive` results.  When some record lacks a string id it
is re-assigned a fresh generated id on every run, so `partsFor` can differ
in that id between runs, but `isActive` and `childrenOf` still agree, the
fresh ids never being blacklisted. -/
theorem reconcile_idempotent_amended :
    (∀ (gen gen' : Nat → Str) (roots : List Str) (dirs : List ContextDir) (c c' : Nat),
      allIdsPresent dirs →
      (syncCore gen roots dirs c).banned = (syncCore gen' roots dirs c').banned ∧
      (syncCore gen roots dirs c).index = (syncCore gen' roots dirs c').index) ∧
    (∀ (gen gen' : Nat → Str) (roots : List Str) (dirs : List ContextDir) (c c' : Nat),
      freshGen gen dirs → freshGen gen' dirs →
      (∀ fp, isCheckedB (syncCore gen roots dirs c) fp
        = isCheckedB (syncCore gen' roots dirs c') fp) ∧
      (∀ base, getChildrenForPath (syncCore gen roots dirs c) base
        = getChildrenForPath (syncCore gen' roots dirs c') base)) := by
  constructor
  · intro gen gen' roots dirs c c' h
    exact ⟨syncDirs_banned_eq gen gen' roots roots dirs [] c c',
      syncDirs_allIds_index gen gen' roots dirs [] c c' h⟩
  · intro gen gen' roots dirs c c' hg hg'
    have hmap := syncDirs_fresh_fp gen gen' roots (allBanIds dirs) hg hg' dirs [] c c'
      (by simp) (fun d hd y hy => mem_allBanIds dirs d y hd hy)
    exact ⟨isCheckedB_eq_of_fp _ _ hmap, getChildrenForPath_eq_of_fp _ _ hmap⟩

/-- C1 amended, witness: identical indexes at two generator counters for an
all-ids store, and agreeing `isActive` for a store with a missing-id
record. -/
theorem reconcile_idempotent_amended_witness :
    ((syncCore (fun _ => []) [str "/r"] [⟨[], [rpSimple "a" "/r/f"]⟩] 0).index
      = (syncCore (fun _ => []) [str "/r"] [⟨[], [rpSimple "a" "/r/f"]⟩] 5).index) ∧
    (isCheckedB (syncCore (fun _ => str "z") [str "/r"]
        [⟨[str "b"], [⟨none, some (str "/r/f"), none, none, none⟩]⟩] 0) (str "/r/f")
      = isCheckedB (syncCore (fun _ => str "z") [str "/r"]
        [⟨[str "b"], [⟨none, some (str "/r/f"), none, none, none⟩]⟩] 7) (str "/r/f")) :=
  ⟨(reconcile_idempotent_amended.1 (fun _ => []) (fun _ => []) [str "/r"]
      [⟨[], [rpSimple "a" "/r/f"]⟩] 0 5 (by unfold allIdsPresent; decide)).2,
   (reconcile_idempotent_amended.2 (fun _ => str "z") (fun _ => str "z") [str "/r"]
      [⟨[str "b"], [⟨none, some (str "/r/f"), none, none, none⟩]⟩] 0 7
      (fun _ => by show str "z" ∉ allBanIds _; decide)
      (fun _ => by show str "z" ∉ allBanIds _; decide)).1 (str "/r/f")⟩

/-! # Claim C7: hierarchy derivation from leaves -/

theorem splitSep_sep (rest : Str) : splitSep ('/' :: rest) = [] :: splitSep rest := rfl

theorem splitSep_cons (c : Char) (a : Str) (hc : c ≠ '/') :
    splitSep (c :: a) =
      match splitSep a with
      | [] => [[c]]
      | l :: ls => (c :: l) :: ls := by
  rw [splitSep.eq_def]
  split
  · simp_all
  · rename_i heq
    injection heq with hc2
    exact absurd hc2 hc
  · rename_i heq
    injection heq with hc2 hr2
    subst hc2; subst hr2
    rfl

theorem splitSep_ne_nil (a : Str) : splitSep a ≠ [] := by
  rw [splitSep.eq_def]
  split
  · simp
  · simp
  · split <;> simp

theorem splitSep_append (a b : Str) : splitSep (a ++ '/' :: b) = splitSep a ++ splitSep b := by
  induction a with
  | nil => rfl
  | cons c a ih =>
    by_cases hc : c = '/'
    · subst hc
      rw [List.cons_append, splitSep_sep, splitSep_sep, ih]
      rfl
    · rw [List.cons_append, splitSep_cons c (a ++ '/' :: b) hc, splitSep_cons c a hc, ih]
      cases hsa : splitSep a with
      | nil => exact absurd hsa (splitSep_ne_nil a)
      | cons l ls => rfl

theorem splitSep_no_sep (a : Str) (h : '/' ∉ a) : splitSep a = [a] := by
  induction a with
  | nil => rfl
  | cons c a ih =>
    have hc : c ≠ '/' := fun hh => h (hh ▸ List.mem_cons_self c a)
    rw [splitSep_cons c a hc, ih (fun hh => h (List.mem_cons_of_mem c hh))]

theorem joinSep_cons (l : Str) (l2 : Str) (ls : List Str) :
    joinSep (l :: l2 :: ls) = l ++ '/' :: joinSep (l2 :: ls) := rfl

theorem joinSep_splitSep (a : Str) : joinSep (splitSep a) = a := by
  induction a using splitSep.induct with
  | case1 => rfl
  | case2 rest ih =>
    rw [splitSep_sep]
    cases h : splitSep rest with
    | nil => exact absurd h (splitSep_ne_nil rest)
    | cons l ls =>
      rw [joinSep_cons, List.nil_append]
      rw [h] at ih
      rw [ih]
  | case3 c rest hne hsplit ih => exact absurd hsplit (splitSep_ne_nil rest)
  | case4 c rest hne l ls hsplit ih =>
    rw [splitSep_cons c rest (fun hh => hne hh), hsplit]
    rw [hsplit] at ih
    cases ls with
    | nil =>
      simp only [joinSep] at ih ⊢
      rw [ih]
    | cons l2 ls2 =>
      rw [joinSep_cons l l2 ls2] at ih
      rw [joinSep_cons (c :: l) l2 ls2, List.cons_append, ih]

theorem relSegs_self (l : List Str) : ∀ m, relSegs l (l ++ m) = m := by
  induction l with
  | nil =>
    intro m
    simp [relSegs]
  | cons a l ih =>
    intro m
    rw [List.cons_append]
    rw [show relSegs (a :: l) (a :: (l ++ m))
      = if a = a then relSegs l (l ++ m)
        else List.replicate (l.length + 1) (str "..") ++ a :: (l ++ m) from rfl]
    rw [if_pos rfl, ih m]

theorem hasPrefixCL_append (p t : Str) : hasPrefixCL p (p ++ t) = true := by
  induction p with
  | nil => rfl
  | cons c p ih => simpa [hasPrefixCL] using ih

theorem pathRelative_under (base seg : Str) (h : '/' ∉ seg) :
    pathRelative base (base ++ '/' :: seg) = seg := by
  unfold pathRelative
  rw [splitSep_append, splitSep_no_sep seg h, relSegs_self]
  rfl

theorem pathRelative_under2 (base seg rest : Str) (h : '/' ∉ seg) :
    pathRelative base (base ++ '/' :: (seg ++ '/' :: rest)) = seg ++ '/' :: rest := by
  unfold pathRelative
  rw [splitSep_append, splitSep_append, splitSep_no_sep seg h, relSegs_self]
  rw [show ([seg] ++ splitSep rest : List Str) = seg :: splitSep rest from rfl]
  cases hr : splitSep rest with
  | nil => exact absurd hr (splitSep_ne_nil rest)
  | cons l ls =>
    rw [joinSep_cons, show (l :: ls : List Str) = splitSep rest from hr.symm,
      joinSep_splitSep]

theorem pathJoin_inj (base a b : Str) (h : pathJoin base a = pathJoin base b) : a = b := by
  unfold pathJoin at h
  by_cases hb : base.getLast? = some '/'
  · rw [if_pos hb, if_pos hb] at h
    exact List.append_cancel_left h
  · rw [if_neg hb, if_neg hb] at h
    have := List.append_cancel_left h
    injection this

theorem lowerPrefixOk (base tail : Str) :
    hasPrefixCL (lowerS base ++ ['/']) (lowerS (base ++ '/' :: tail)) = true := by
  have h1 : lowerS (base ++ '/' :: tail) = (lowerS base ++ ['/']) ++ lowerS tail := by
    unfold lowerS
    rw [List.map_append, List.map_cons, show lowerC '/' = '/' from rfl, List.append_assoc]
    rfl
  rw [h1]
  exact hasPrefixCL_append _ _

theorem upsertKV_self_mem (m : List (Str × Str)) (k v : Str) : (k, v) ∈ upsertKV m k v := by
  unfold upsertKV
  by_cases h : m.any (fun e => decide (e.1 = k)) = true
  · rw [if_pos h]
    obtain ⟨e, he, hk⟩ := List.any_eq_true.mp h
    have heq : (if e.1 = k then (k, v) else e) = (k, v) := if_pos (of_decide_eq_true hk)
    have := List.mem_map_of_mem (fun e2 => if e2.1 = k then (k, v) else e2) he
    simpa only [heq] using this
  · rw [if_neg h]
    exact List.mem_append.mpr (Or.inr (List.mem_cons_self _ _))

theorem upsertKV_preserve (m : List (Str × Str)) (k v k2 v2 : Str)
    (he : (k, v) ∈ m) (hne : k ≠ k2) : (k, v) ∈ upsertKV m k2 v2 := by
  unfold upsertKV
  by_cases h : m.any (fun e => decide (e.1 = k2)) = true
  · rw [if_pos h]
    have heq : (if (k, v).1 = k2 then (k2, v2) else (k, v)) = (k, v) := if_neg hne
    have := List.mem_map_of_mem (fun e2 => if e2.1 = k2 then (k2, v2) else e2) he
    simpa only [heq] using this
  · rw [if_neg h]
    exact List.mem_append.mpr (Or.inl he)

/-- The canonical label a classified file key receives. -/
theorem childrenStep_preserves_file (base : Str) (st : List (Str × Str) × List (Str × Str))
    (k : Str) (e : Str × Str) (he : e ∈ st.2)
    (hv : e.2 = (splitSep (pathRelative base e.1)).headD []) :
    e ∈ (childrenStep base st k).2 := by
  unfold childrenStep
  by_cases h1 : hasPrefixCL (lowerS base ++ ['/']) (lowerS k) = true
  · rw [if_pos h1]
    by_cases h2 : pathRelative base k = [] ∨ hasPrefixCL (str "..") (pathRelative base k) = true
    · rw [if_pos h2]
      exact he
    · rw [if_neg h2]
      by_cases h3 : (splitSep (pathRelative base k)).length = 1
      · rw [if_pos h3]
        by_cases hk : e.1 = k
        · have : e = (k, (splitSep (pathRelative base k)).headD []) := by
            cases e with
            | mk a b => simp only at hv hk ⊢; rw [hk, hv, hk]
          rw [this]
          exact upsertKV_self_mem st.2 k _
        · cases e with
          | mk a b => exact upsertKV_preserve st.2 a b k _ he hk
      · rw [if_neg h3]
        exact he
  · rw [if_neg h1]
    exact he

theorem childrenStep_preserves_dir (base : Str) (st : List (Str × Str) × List (Str × Str))
    (k : Str) (e : Str × Str) (he : e ∈ st.1) (hkey : e.1 = pathJoin base e.2) :
    e ∈ (childrenStep base st k).1 := by
  unfold childrenStep
  by_cases h1 : hasPrefixCL (lowerS base ++ ['/']) (lowerS k) = true
  · rw [if_pos h1]
    by_cases h2 : pathRelative base k = [] ∨ hasPrefixCL (str "..") (pathRelative base k) = true
    · rw [if_pos h2]
      exact he
    · rw [if_neg h2]
      by_cases h3 : (splitSep (pathRelative base k)).length = 1
      · rw [if_pos h3]
        exact he
      · rw [if_neg h3]
        by_cases hk : e.1 = pathJoin base ((splitSep (pathRelative base k)).headD [])
        · have hv : e.2 = (splitSep (pathRelative base k)).headD [] :=
            pathJoin_inj base e.2 _ (hkey.symm.trans hk)
          have : e = (pathJoin base ((splitSep (pathRelative base k)).headD []),
              (splitSep (pathRelative base k)).headD []) := by
            cases e with
            | mk a b => simp only at hkey hv hk ⊢; rw [hk, hv]
          rw [this]
          exact upsertKV_self_mem st.1 _ _
        · cases e with
          | mk a b => exact upsertKV_preserve st.1 a b _ _ he hk
  · rw [if_neg h1]
    exact he

theorem childrenStep_insert_file (base : Str) (st : List (Str × Str) × List (Str × Str))
    (seg : Str) (h1 : seg ≠ []) (h2 : '/' ∉ seg)
    (h3 : hasPrefixCL (str "..") seg = false) :
    (base ++ '/' :: seg, seg) ∈ (childrenStep base st (base ++ '/' :: seg)).2 := by
  unfold childrenStep
  rw [if_pos (lowerPrefixOk base seg)]
  rw [if_neg (by
    rw [pathRelative_under base seg h2]
    rintro (hh | hh)
    · exact h1 hh
    · rw [h3] at hh; exact Bool.false_ne_true hh)]
  rw [if_pos (by rw [pathRelative_under base seg h2, splitSep_no_sep seg h2]; rfl)]
  rw [show ((splitSep (pathRelative base (base ++ '/' :: seg))).headD []) = seg from by
    rw [pathRelative_under base seg h2, splitSep_no_sep seg h2]
    rfl]
  exact upsertKV_self_mem st.2 _ _

theorem childrenStep_insert_dir (base : Str) (st : List (Str × Str) × List (Str × Str))
    (seg rest : Str) (h2 : '/' ∉ seg)
    (h3 : hasPrefixCL (str "..") (seg ++ '/' :: rest) = false) :
    (pathJoin base seg, seg)
      ∈ (childrenStep base st (base ++ '/' :: (seg ++ '/' :: rest))).1 := by
  have hsplit : splitSep (pathRelative base (base ++ '/' :: (seg ++ '/' :: rest)))
      = seg :: splitSep rest := by
    rw [pathRelative_under2 base seg rest h2, splitSep_append, splitSep_no_sep seg h2]
    rfl
  unfold childrenStep
  rw [if_pos (lowerPrefixOk base (seg ++ '/' :: rest))]
  rw [if_neg (by
    rw [pathRelative_under2 base seg rest h2]
    rintro (hh | hh)
    · exact absurd hh (by simp)
    · rw [h3] at hh; exact Bool.false_ne_true hh)]
  rw [if_neg (by
    rw [hsplit]
    have := splitSep_ne_nil rest
    simp only [List.length_cons]
    intro hh
    have : (splitSep rest).length = 0 := by omega
    exact splitSep_ne_nil rest (List.length_eq_zero.mp this))]
  rw [show ((splitSep (pathRelative base (base ++ '/' :: (seg ++ '/' :: rest)))).headD [])
      = seg from by rw [hsplit]; rfl]
  exact upsertKV_self_mem st.1 _ _

theorem childrenFold_file (base : Str) :
    ∀ (keys : List Str) (st : List (Str × Str) × List (Str × Str)) (seg : Str),
      seg ≠ [] → '/' ∉ seg → hasPrefixCL (str "..") seg = false →
      ((base ++ '/' :: seg) ∈ keys ∨ (base ++ '/' :: seg, seg) ∈ st.2) →
      (base ++ '/' :: seg, seg) ∈ (keys.foldl (childrenStep base) st).2 := by
  intro keys
  induction keys with
  | nil =>
    intro st seg _ _ _ hin
    rcases hin with hin | hin
    · simp at hin
    · exact hin
  | cons k ks ih =>
    intro st seg h1 h2 h3 hin
    rw [List.foldl_cons]
    have hcanon : (base ++ '/' :: seg, seg).2
        = (splitSep (pathRelative base (base ++ '/' :: seg, seg).1)).headD [] := by
      simp only
      rw [pathRelative_under base seg h2, splitSep_no_sep seg h2]
      rfl
    rcases hin with hin | hin
    · rcases List.mem_cons.mp hin with hk | hk
      · subst hk
        exact ih (childrenStep base st (base ++ '/' :: seg)) seg h1 h2 h3
          (Or.inr (childrenStep_insert_file base st seg h1 h2 h3))
      · exact ih _ seg h1 h2 h3 (Or.inl hk)
    · exact ih _ seg h1 h2 h3
        (Or.inr (childrenStep_preserves_file base st k _ hin hcanon))

theorem childrenFold_dir (base : Str) :
    ∀ (keys : List Str) (st : List (Str × Str) × List (Str × Str)) (seg rest : Str),
      '/' ∉ seg → hasPrefixCL (str "..") (seg ++ '/' :: rest) = false →
      ((base ++ '/' :: (seg ++ '/' :: rest)) ∈ keys ∨ (pathJoin base seg, seg) ∈ st.1) →
      (pathJoin base seg, seg) ∈ (keys.foldl (childrenStep base) st).1 := by
  intro keys
  induction keys with
  | nil =>
    intro st seg rest _ _ hin
    rcases hin with hin | hin
    · simp at hin
    · exact hin
  | cons k ks ih =>
    intro st seg rest h2 h3 hin
    rw [List.foldl_cons]
    rcases hin with hin | hin
    · rcases List.mem_cons.mp hin with hk | hk
      · subst hk
        exact ih _ seg rest h2 h3 (Or.inr (childrenStep_insert_dir base st seg rest h2 h3))
      · exact ih _ seg rest h2 h3 (Or.inl hk)
    · exact ih _ seg rest h2 h3
        (Or.inr (childrenStep_preserves_dir base st k _ hin rfl))

theorem mem_firstDedupAux (x : Str) :
    ∀ (l : List Str) (seen : List Str), x ∈ l → x ∉ seen → x ∈ firstDedupAux seen l := by
  intro l
  induction l with
  | nil => intro seen h _; simp at h
  | cons a l ih =>
    intro seen hx hseen
    unfold firstDedupAux
    by_cases ha : a ∈ seen
    · rw [if_pos ha]
      rcases List.mem_cons.mp hx with h | h
      · exact absurd (h ▸ ha) hseen
      · exact ih seen h hseen
    · rw [if_neg ha]
      by_cases hxa : x = a
      · exact hxa ▸ List.mem_cons_self a _
      · rcases List.mem_cons.mp hx with h | h
        · exact absurd h hxa
        · exact List.mem_cons_of_mem a (ih (seen ++ [a]) h (by
            intro hh
            rcases List.mem_append.mp hh with hh | hh
            · exact hseen hh
            · exact hxa (by simpa using hh)))

theorem mem_keysOf (s : SyncState) (fp : Str) (h : fp ∈ s.index.map (fun p => p.filePath)) :
    fp ∈ keysOf s := by
  unfold keysOf firstDedup
  exact mem_firstDedupAux fp _ [] h (by simp)

/-- C7 counterexample.  The path `/root/..x` is strictly under `/root` and
exactly one path segment below it (its segment `..x` is non-empty and
separator-free), yet `childrenOf "/root"` classifies it neither as a file
entry nor as a directory entry: the guard `rel.startsWith('..')` (line
216-218) skips every key whose derived relative path begins with the two
characters `..`, so the claim's universal classification fails there. -/
theorem hierarchy_derivation_cx :
    getChildrenForPath ⟨[], [⟨str "q", str "/root/..x", none, none, none⟩], 0⟩ (str "/root")
      = ([], []) ∧
    str "/root/..x" = str "/root" ++ '/' :: str "..x" ∧
    str "..x" ≠ [] ∧ '/' ∉ str "..x" := by
  refine ⟨by decide, by decide, by decide, by decide⟩

/-- C7 amended.  `childrenOf` classifies every indexed path strictly under
the base path whose relative remainder does not begin with `..` (the
`rel.startsWith('..')` guard silently skips those): a path exactly one
segment below becomes a file entry labelled with that segment, and a path
two or more segments below contributes a synthetic directory entry named
after its first segment; in particular with indexed paths `/root/a/b.txt`
and `/root/c.txt`, `childrenOf "/root"` returns exactly one directory
entry `a` and one file entry `c.txt`, and `childrenOf "/root/a"` returns
exactly one file entry `b.txt`. -/
theorem hierarchy_derivation :
    (∀ (s : SyncState) (base seg : Str), seg ≠ [] → '/' ∉ seg →
      hasPrefixCL (str "..") seg = false → (base ++ '/' :: seg) ∈ keysOf s →
      (⟨base ++ '/' :: seg, seg⟩ : Entry) ∈ (getChildrenForPath s base).2) ∧
    (∀ (s : SyncState) (base seg rest : Str), '/' ∉ seg →
      hasPrefixCL (str "..") (seg ++ '/' :: rest) = false →
      (base ++ '/' :: (seg ++ '/' :: rest)) ∈ keysOf s →
      (⟨pathJoin base seg, seg⟩ : Entry) ∈ (getChildrenForPath s base).1) ∧
    (getChildrenForPath ⟨[], [⟨str "x", str "/root/a/b.txt", none, none, none⟩,
        ⟨str "y", str "/root/c.txt", none, none, none⟩], 0⟩ (str "/root")
      = ([⟨str "/root/a", str "a"⟩], [⟨str "/root/c.txt", str "c.txt"⟩])) ∧
    (getChildrenForPath ⟨[], [⟨str "x", str "/root/a/b.txt", none, none, none⟩,
        ⟨str "y", str "/root/c.txt", none, none, none⟩], 0⟩ (str "/root/a")
      = ([], [⟨str "/root/a/b.txt", str "b.txt"⟩])) := by
  refine ⟨?_, ?_, by decide, by decide⟩
  · intro s base seg h1 h2 h3 hk
    have hmem := childrenFold_file base (keysOf s) ([], []) seg h1 h2 h3 (Or.inl hk)
    unfold getChildrenForPath
    refine (List.Perm.mem_iff (List.perm_insertionSort entryOrd _)).mpr ?_
    exact List.mem_map_of_mem (fun e => Entry.mk e.1 e.2) hmem
  · intro s base seg rest h2 h3 hk
    have hmem := childrenFold_dir base (keysOf s) ([], []) seg rest h2 h3 (Or.inl hk)
    unfold getChildrenForPath
    refine (List.Perm.mem_iff (List.perm_insertionSort entryOrd _)).mpr ?_
    exact List.mem_map_of_mem (fun e => Entry.mk e.1 e.2) hmem

/-- C7 witness: the general file and directory classifications applied at
the concrete index of the claim. -/
theorem hierarchy_derivation_witness :
    ((⟨str "/root" ++ '/' :: str "c.txt", str "c.txt"⟩ : Entry)
      ∈ (getChildrenForPath ⟨[], [⟨str "x", str "/root/a/b.txt", none, none, none⟩,
          ⟨str "y", str "/root/c.txt", none, none, none⟩], 0⟩ (str "/root")).2) ∧
    ((⟨pathJoin (str "/root") (str "a"), str "a"⟩ : Entry)
      ∈ (getChildrenForPath ⟨[], [⟨str "x", str "/root/a/b.txt", none, none, none⟩,
          ⟨str "y", str "/root/c.txt", none, none, none⟩], 0⟩ (str "/root")).1) :=
  ⟨hierarchy_derivation.1 _ (str "/root") (str "c.txt") (by decide) (by decide) (by decide)
      (by decide),
   hierarchy_derivation.2.1 _ (str "/root") (str "a") (str "b.txt") (by decide) (by decide)
      (by decide)⟩

/-! # Claim C10: the frame effect of ban operations -/

theorem mem_upsertById (m : List RawPart) (p x : RawPart) (h : x ∈ upsertById m p) :
    x ∈ m ∨ x = p := by
  unfold upsertById at h
  by_cases hany : m.any (fun q => decide (q.id = p.id)) = true
  · rw [if_pos hany] at h
    obtain ⟨q, hq, hqx⟩ := List.mem_map.mp h
    by_cases hqp : q.id = p.id
    · rw [if_pos hqp] at hqx
      exact Or.inr hqx.symm
    · rw [if_neg hqp] at hqx
      exact Or.inl (hqx ▸ hq)
  · rw [if_neg hany] at h
    rcases List.mem_append.mp h with h | h
    · exact Or.inl h
    · exact Or.inr (by simpa using h)

theorem mem_foldl_upsert (x : RawPart) :
    ∀ (l : List RawPart) (m : List RawPart), x ∈ l.foldl upsertById m → x ∈ m ∨ x ∈ l := by
  intro l
  induction l with
  | nil => intro m h; exact Or.inl h
  | cons p l ih =>
    intro m h
    rw [List.foldl_cons] at h
    rcases ih (upsertById m p) h with h2 | h2
    · rcases mem_upsertById m p x h2 with h3 | h3
      · exact Or.inl h3
      · exact Or.inr (h3 ▸ List.mem_cons_self p l)
    · exact Or.inr (List.mem_cons_of_mem p h2)

theorem foldl_upsert_of_new_ids :
    ∀ (l m : List RawPart), (∀ r ∈ m, ∀ q ∈ l, r.id ≠ q.id) →
      List.Pairwise (fun a b : RawPart => a.id ≠ b.id) l →
      l.foldl upsertById m = m ++ l := by
  intro l
  induction l with
  | nil => intro m _ _; simp
  | cons p l ih =>
    intro m hm hl
    rw [List.foldl_cons]
    have hany : m.any (fun q => decide (q.id = p.id)) = false := by
      rw [List.any_eq_false]
      intro q hq
      simpa using hm q hq p (List.mem_cons_self p l)
    have hup : upsertById m p = m ++ [p] := by
      unfold upsertById
      rw [if_neg (by rw [hany]; simp)]
    rw [hup, ih (m ++ [p]) ?_ (List.pairwise_cons.mp hl).2]
    · simp
    · intro r hr q hq
      rcases List.mem_append.mp hr with h | h
      · exact hm r h q (List.mem_cons_of_mem p hq)
      · have : r = p := by simpa using h
        subst this
        exact (List.pairwise_cons.mp hl).1 q hq

theorem dedupById_of_nodup_ids (l : List RawPart)
    (h : List.Pairwise (fun a b : RawPart => a.id ≠ b.id) l) : dedupById l = l := by
  unfold dedupById
  rw [foldl_upsert_of_new_ids l [] (by simp) h]
  rfl

/-- C10 counterexample.  `banPart` on a root whose parts document holds two
shape-valid records sharing an id: the rewritten document keeps only the
later record, so the earlier one — although its `id` and
`state.input.filePath` are strings — is not preserved, contradicting the
claim that every shape-valid record survives the rewrite. -/
theorem ban_frame_cx :
    shapeValid (rpSimple "x" "/r/a") = true ∧
    banPersist [str "z"] [[rpSimple "x" "/r/a", rpSimple "x" "/r/b"]]
      = [([rpSimple "x" "/r/b"], [str "z"])] ∧
    rpSimple "x" "/r/a" ∉ writeCheckedParts [rpSimple "x" "/r/a", rpSimple "x" "/r/b"] := by
  refine ⟨by decide, by decide, by decide⟩

/-- C10 amended.  Every successful ban operation rewrites the blacklist
document of every configured root with the identical, sorted,
de-duplicated banned-id set, and rewrites every configured root's parts
document sorted by `filePath`, silently dropping records failing shape
validation and keeping, for each id, the last shape-valid record bearing it
— in particular every shape-valid record when the ids are pairwise
distinct; a duplicated id loses all but its last record. -/
theorem ban_frame_amended :
    (∀ (banned : List Str) (docs : List (List RawPart)), ∀ pr ∈ banPersist banned docs,
      pr.2 = writeCheckedBan banned ∧ List.Sorted (fun a b : Str => a ≤ b) pr.2 ∧
      (banned.Nodup → pr.2.Nodup) ∧ ∃ d ∈ docs, pr.1 = writeCheckedParts d) ∧
    (∀ doc : List RawPart, List.Sorted fpOrd (writeCheckedParts doc) ∧
      ∀ r ∈ writeCheckedParts doc, r ∈ doc.filter shapeValid) ∧
    (∀ doc : List RawPart,
      List.Pairwise (fun a b : RawPart => a.id ≠ b.id) (doc.filter shapeValid) →
      ∀ r ∈ doc.filter shapeValid, r ∈ writeCheckedParts doc) := by
  refine ⟨?_, ?_, ?_⟩
  · intro banned docs pr hpr
    obtain ⟨d, hd, rfl⟩ := List.mem_map.mp hpr
    refine ⟨rfl, List.sorted_insertionSort _ _, ?_, ⟨d, hd, rfl⟩⟩
    intro hnd
    exact (List.Perm.nodup_iff (List.perm_insertionSort _ banned)).mpr hnd
  · intro doc
    refine ⟨List.sorted_insertionSort fpOrd _, ?_⟩
    intro r hr
    have h1 : r ∈ dedupById (doc.filter shapeValid) :=
      (List.Perm.mem_iff (List.perm_insertionSort fpOrd _)).mp hr
    rcases mem_foldl_upsert r (doc.filter shapeValid) [] h1 with h2 | h2
    · simp at h2
    · exact h2
  · intro doc hnd r hr
    unfold writeCheckedParts
    rw [dedupById_of_nodup_ids _ hnd]
    exact (List.Perm.mem_iff (List.perm_insertionSort fpOrd _)).mpr hr

/-- C10 amended, witness: a concrete rewrite yields a sorted duplicate-free
blacklist document and preserves a concrete shape-valid distinct-id
record. -/
theorem ban_frame_amended_witness :
    List.Sorted (fun a b : Str => a ≤ b) (writeCheckedBan [str "q", str "p"]) ∧
    (writeCheckedBan [str "q", str "p"]).Nodup ∧
    rpSimple "a" "/r/a" ∈ writeCheckedParts [rpSimple "b" "/r/b", rpSimple "a" "/r/a"] := by
  have h1 := ban_frame_amended.1 [str "q", str "p"] [[rpSimple "b" "/r/b"]]
    (writeCheckedParts [rpSimple "b" "/r/b"], writeCheckedBan [str "q", str "p"])
    (by decide)
  have h3 := ban_frame_amended.2.2 [rpSimple "b" "/r/b", rpSimple "a" "/r/a"]
    (by decide) (rpSimple "a" "/r/a") (by decide)
  exact ⟨h1.2.1, h1.2.2.1 (by decide), h3⟩

end Contexty
